import Mathlib

/-!
# Verification of the `alshehhi` rank-metric public-key encryption scheme

Shallow embedding of the `alshehhi` Python package (Loidreau-style rank-metric
PKE with the Shehhi et al. IND-CCA transform) and proofs about it.

Conventions of the embedding:

* Python `bytes` objects are modelled as `List Bool`, the big-endian bit string
  of the bytes (8 bits per byte, most significant bit of each byte first).  All
  byte strings manipulated by the source have lengths counted in bytes; in the
  model a byte string always has a length divisible by 8 and `len(b)` becomes
  `l.length / 8`.
* Field elements of `F_{2^m}` carry an integer representation in `[0, 2^m)`
  (Sage's `integer_representation`), and the polynomial-basis representation
  makes addition the bitwise XOR of integer representations.  The cipher and
  key material are developed over an abstract field `K` together with a
  `BitRep K m` structure recording this representation.
* Randomness (Sage's samplers) is made explicit: each sampled object becomes a
  parameter of the embedded function, constrained by the contract of the
  sampler that produced it.
* Python exceptions become an `Err` error type through `Except`.
-/

namespace Alshehhi

/-- Error kinds raised by the Python source: `DecodingError` (Sage's decoder
error, also raised by `Dec`), `ValueError`, and the distinguished parameter
error of the samplers.  `randomnessExhausted` models non-termination of a
rejection-sampling loop whose random stream ran out (the source would loop
forever instead). -/
inductive Err where
  | decodingError
  | valueError
  | parameterError
  | typeError
  | randomnessExhausted
  deriving DecidableEq, Repr

/-- Model of BYTE_SIZE from io.py. -/
def BYTE_SIZE : Nat := 8

/-! ## Bit strings

Big-endian bit strings model both Python `bytes` and the intermediate `"0101"`
strings built by `io.py`. -/

/-- Numeric value of a big-endian bit string, as in int(bits, 2). -/
def bitsToNat (l : List Bool) : Nat :=
  l.foldl (fun a b => 2 * a + b.toNat) 0

/-- The `w`-bit big-endian representation of `n` (`to_bytes`/zero-padded
`binary()` in the source).  Only the low `w` bits of `n` are kept. -/
def natToBitsBE : Nat → Nat → List Bool
  | 0, _ => []
  | w + 1, n => natToBitsBE w (n / 2) ++ [decide (n % 2 = 1)]

theorem length_natToBitsBE (w n : Nat) : (natToBitsBE w n).length = w := by
  induction w generalizing n with
  | zero => rfl
  | succ w ih => simp [natToBitsBE, ih]

theorem bitsToNat_foldl (l : List Bool) (a : Nat) :
    l.foldl (fun a b => 2 * a + b.toNat) a = a * 2 ^ l.length + bitsToNat l := by
  induction l generalizing a with
  | nil => simp [bitsToNat]
  | cons b t ih =>
    simp only [List.foldl_cons, bitsToNat, List.length_cons]
    rw [ih, ih (2 * 0 + b.toNat)]
    ring

theorem bitsToNat_append (a b : List Bool) :
    bitsToNat (a ++ b) = bitsToNat a * 2 ^ b.length + bitsToNat b := by
  simp only [bitsToNat, List.foldl_append]
  rw [bitsToNat_foldl]
  rfl

theorem bitsToNat_lt (l : List Bool) : bitsToNat l < 2 ^ l.length := by
  induction l with
  | nil => simp [bitsToNat]
  | cons b t ih =>
    have h1 : bitsToNat [b] = b.toNat := by cases b <;> rfl
    have : bitsToNat (b :: t) = b.toNat * 2 ^ t.length + bitsToNat t := by
      have := bitsToNat_append [b] t
      simpa [h1] using this
    rw [this]
    simp only [List.length_cons, pow_succ]
    cases b <;> simp <;> omega

theorem bitsToNat_concat (l : List Bool) (b : Bool) :
    bitsToNat (l ++ [b]) = 2 * bitsToNat l + b.toNat := by
  rw [bitsToNat_append]
  simp [bitsToNat]
  ring

/-- Recovering a bit string from its numeric value at its own length. -/
theorem natToBitsBE_bitsToNat (l : List Bool) :
    natToBitsBE l.length (bitsToNat l) = l := by
  induction l using List.reverseRecOn with
  | nil => rfl
  | append_singleton t b ih =>
    rw [bitsToNat_concat]
    have hlen : (t ++ [b]).length = t.length + 1 := by simp
    rw [hlen]
    show natToBitsBE t.length ((2 * bitsToNat t + b.toNat) / 2) ++
        [decide ((2 * bitsToNat t + b.toNat) % 2 = 1)] = t ++ [b]
    have hdiv : (2 * bitsToNat t + b.toNat) / 2 = bitsToNat t := by
      cases b <;> simp <;> omega
    have hmod : decide ((2 * bitsToNat t + b.toNat) % 2 = 1) = b := by
      cases b <;> simp [Nat.add_mod] <;> omega
    rw [hdiv, hmod, ih]

theorem bitsToNat_natToBitsBE (w n : Nat) (h : n < 2 ^ w) :
    bitsToNat (natToBitsBE w n) = n := by
  induction w generalizing n with
  | zero =>
    simp only [pow_zero, Nat.lt_one_iff] at h
    simp [natToBitsBE, bitsToNat, h]
  | succ w ih =>
    simp only [natToBitsBE]
    rw [bitsToNat_concat]
    have hdiv : n / 2 < 2 ^ w := by
      rw [pow_succ] at h
      omega
    rw [ih _ hdiv]
    have := Nat.div_add_mod n 2
    rcases Nat.mod_two_eq_zero_or_one n with h0 | h1
    · simp [h0]
      omega
    · simp [h1]
      omega

theorem natToBitsBE_zero (w : Nat) : natToBitsBE w 0 = List.replicate w false := by
  induction w with
  | zero => rfl
  | succ w ih =>
    simp only [natToBitsBE, Nat.zero_div]
    rw [ih]
    have : (List.replicate (w + 1) (false : Bool)) =
        List.replicate w false ++ [false] := by
      rw [List.replicate_succ' w false]
    rw [this]
    simp

/-- Widening a big-endian representation pads with leading zero bits. -/
theorem natToBitsBE_widen (w d n : Nat) (h : n < 2 ^ w) :
    natToBitsBE (d + w) n = List.replicate d false ++ natToBitsBE w n := by
  induction w generalizing n with
  | zero =>
    simp only [pow_zero, Nat.lt_one_iff] at h
    subst h
    simp [natToBitsBE, natToBitsBE_zero]
  | succ w ih =>
    have hdiv : n / 2 < 2 ^ w := by
      rw [pow_succ] at h
      omega
    show natToBitsBE (d + w + 1) n = _
    simp only [natToBitsBE]
    rw [ih _ hdiv, List.append_assoc]

/-- Packing a bit string into `⌈length/8⌉` bytes (`int(bits,2).to_bytes(..)`)
prepends zero bits up to the byte boundary. -/
theorem natToBitsBE_pad (l : List Bool) (w : Nat) (h : l.length ≤ w) :
    natToBitsBE w (bitsToNat l) = List.replicate (w - l.length) false ++ l := by
  have hw : w = (w - l.length) + l.length := by omega
  rw [hw, natToBitsBE_widen _ _ _ (bitsToNat_lt l), natToBitsBE_bitsToNat]
  simp

/-- Big-endian representation turns `Nat.xor` into bitwise `Bool.xor`. -/
theorem natToBitsBE_xor (w a b : Nat) :
    natToBitsBE w (a ^^^ b) =
      List.zipWith Bool.xor (natToBitsBE w a) (natToBitsBE w b) := by
  induction w generalizing a b with
  | zero => rfl
  | succ w ih =>
    simp only [natToBitsBE]
    rw [List.zipWith_append _ _ _ _ _ (by simp [length_natToBitsBE])]
    rw [Nat.xor_div_two, ih]
    congr 1
    simp only [List.zipWith_cons_cons, List.zipWith_nil_right]
    congr 1
    rcases Nat.mod_two_eq_zero_or_one a with ha | ha <;>
      rcases Nat.mod_two_eq_zero_or_one b with hb | hb <;>
        simp [Nat.xor_mod_two_eq_one, ha, hb, Nat.add_mod]

theorem zipxor_length (a b : List Bool) (h : a.length = b.length) :
    (List.zipWith Bool.xor a b).length = a.length := by
  simp [List.length_zipWith, h]

/-- XOR-ing the same mask twice recovers the original string. -/
theorem zipxor_cancel_right (a b : List Bool) (h : a.length = b.length) :
    List.zipWith Bool.xor (List.zipWith Bool.xor a b) b = a := by
  induction a generalizing b with
  | nil => simp
  | cons x xs ih =>
    cases b with
    | nil => simp at h
    | cons y ys =>
      simp only [List.zipWith_cons_cons]
      have hx : Bool.xor (Bool.xor x y) y = x := by cases x <;> cases y <;> rfl
      rw [hx, ih ys (by simpa using h)]

/-- Model of Crypto.Util.strxor.strxor: XOR of two byte strings of equal
length; raises on a length mismatch. -/
def strxor (a b : List Bool) : Except Err (List Bool) :=
  if a.length = b.length then .ok (List.zipWith Bool.xor a b)
  else .error .valueError

theorem strxor_ok (a b : List Bool) (h : a.length = b.length) :
    strxor a b = .ok (List.zipWith Bool.xor a b) := by
  simp [strxor, h]

/-! ## Chunking (`textwrap.wrap` on bit strings) -/

/-- Splitting a list into consecutive chunks of length `d` (the last chunk may
be shorter); `textwrap.wrap(bits, d)` for bit strings. -/
def chunkExact (d : Nat) (l : List α) : List (List α) :=
  if _h : l.length = 0 ∨ d = 0 then []
  else l.take d :: chunkExact d (l.drop d)
termination_by l.length
decreasing_by
  simp only [List.length_drop]
  omega

theorem chunkExact_nil (d : Nat) : chunkExact d ([] : List α) = [] := by
  rw [chunkExact.eq_def]
  simp

/-- Chunking the concatenation of equal-length blocks recovers the blocks. -/
theorem chunkExact_flatten (d : Nat) (hd : 0 < d) (ls : List (List α))
    (h : ∀ c ∈ ls, c.length = d) : chunkExact d ls.flatten = ls := by
  induction ls with
  | nil => simpa using chunkExact_nil d
  | cons c rest ih =>
    have hc : c.length = d := h c (by simp)
    have hflat : (c :: rest).flatten = c ++ rest.flatten := by simp
    rw [hflat, chunkExact.eq_def]
    have hne : ¬((c ++ rest.flatten).length = 0 ∨ d = 0) := by
      push_neg
      constructor
      · simp only [List.length_append]
        omega
      · omega
    rw [dif_neg hne]
    have htake : (c ++ rest.flatten).take d = c := by
      rw [← hc]
      exact List.take_left c rest.flatten
    have hdrop : (c ++ rest.flatten).drop d = rest.flatten := by
      rw [← hc]
      exact List.drop_left c rest.flatten
    rw [htake, hdrop, ih (fun x hx => h x (by simp [hx]))]

/-! ## The element codec (`io.py`)

Elements are modelled by the pair (degree of their field, integer
representation); a Sage element `e` corresponds to
`(e.parent().degree(), e.integer_representation())`. -/

/-- Model of to_str from io.py: the degree-length big-endian coefficient string of a
field element (for `GF(2)` the source produces the strings `"0"`/`"1"`, which
is the same one-bit string). -/
def to_str (deg val : Nat) : List Bool := natToBitsBE deg val

/-- Model of encode_elem_list from io.py: concatenate the coefficient strings of all
elements and pack the result into `⌈bits/8⌉` bytes, zero-filled at the front. -/
def encode_elem_list (elems : List (Nat × Nat)) : List Bool :=
  let bits := (elems.map fun e => to_str e.1 e.2).flatten
  let numBytes := (bits.length + (BYTE_SIZE - 1)) / BYTE_SIZE
  natToBitsBE (BYTE_SIZE * numBytes) (bitsToNat bits)

/-- Model of encode_elem from io.py: a single element packs into `⌈deg/8⌉` bytes
big-endian; an element of `GF(2)` encodes as the single byte `00` or `01`. -/
def encode_elem (deg val : Nat) : List Bool :=
  if deg = 1 then (if val = 0 then natToBitsBE 8 0 else natToBitsBE 8 1)
  else natToBitsBE (BYTE_SIZE * ((deg + (BYTE_SIZE - 1)) / BYTE_SIZE)) val

/-- Model of decode_elem_list from io.py.  Here `data` is a byte string (a bit list of
length `8 · number of bytes`); `deg` is the field degree.  With
`numOfElems = none` the leading `length % deg` bits are discarded; with
`numOfElems = some c` the leading `length - deg*c` bits are discarded, and a
`ValueError` is raised when fewer than `deg*c` bits are available.  For
`GF(2)` (`deg = 1`) every bit becomes an element.  Returns integer
representations. -/
def decode_elem_list (data : List Bool) (deg : Nat) (numOfElems : Option Nat) :
    Except Err (List Nat) :=
  let numBits := data.length
  let padRes : Except Err Nat :=
    match numOfElems with
    | none => .ok (numBits % deg)
    | some c =>
      if numBits < deg * c then .error .valueError
      else .ok (numBits - deg * c)
  match padRes with
  | .error e => .error e
  | .ok paddingLen =>
    if deg = 1 then .ok (data.map fun b => b.toNat)
    else .ok ((chunkExact deg (data.drop paddingLen)).map bitsToNat)

/-- Model of decode_elem from io.py with the field given: for `GF(2)` the byte `00`
decodes to `0` and anything else to `1`; otherwise `fetch_int` of the
big-endian value, which fails when the value is out of range. -/
def decode_elem (data : List Bool) (deg : Nat) : Except Err Nat :=
  if deg = 1 then
    .ok (if data = natToBitsBE 8 0 then 0 else 1)
  else if bitsToNat data < 2 ^ deg then .ok (bitsToNat data)
  else .error .valueError

theorem length_to_str (deg val : Nat) : (to_str deg val).length = deg :=
  length_natToBitsBE deg val

theorem flatten_length_const (d : Nat) (ls : List (List α))
    (h : ∀ c ∈ ls, c.length = d) : ls.flatten.length = d * ls.length := by
  induction ls with
  | nil => simp
  | cons c rest ih =>
    have hc : c.length = d := h c (by simp)
    have : rest.flatten.length = d * rest.length :=
      ih fun x hx => h x (by simp [hx])
    simp only [List.flatten_cons, List.length_append, List.length_cons, hc, this]
    ring

/-- When the total bit count is a byte multiple, `encode_elem_list` is exactly
the concatenation of the coefficient strings (no padding appears). -/
theorem encode_elem_list_eq_flatten (elems : List (Nat × Nat))
    (h : BYTE_SIZE ∣ ((elems.map fun e => to_str e.1 e.2).flatten).length) :
    encode_elem_list elems = (elems.map fun e => to_str e.1 e.2).flatten := by
  obtain ⟨q, hq⟩ := h
  show natToBitsBE (BYTE_SIZE * _) (bitsToNat _) = _
  rw [hq]
  have hceil : (BYTE_SIZE * q + (BYTE_SIZE - 1)) / BYTE_SIZE = q := by
    show (8 * q + 7) / 8 = q
    omega
  rw [hceil, ← hq, natToBitsBE_bitsToNat]

/-- The length of `encode_elem_list` in bits: the total coefficient bit count
rounded up to a whole number of bytes. -/
theorem length_encode_elem_list (elems : List (Nat × Nat)) :
    (encode_elem_list elems).length =
      BYTE_SIZE *
        ((((elems.map fun e => to_str e.1 e.2).flatten).length + (BYTE_SIZE - 1)) /
          BYTE_SIZE) :=
  length_natToBitsBE _ _

theorem chunkExact_of_mul (d : Nat) (hd : 0 < d) (q : Nat) :
    ∀ l : List α, l.length = d * q →
      (chunkExact d l).flatten = l ∧ (chunkExact d l).length = q ∧
        ∀ c ∈ chunkExact d l, c.length = d := by
  induction q with
  | zero =>
    intro l hl
    have : l = [] := List.eq_nil_of_length_eq_zero (by omega)
    subst this
    simp [chunkExact_nil]
  | succ q ih =>
    intro l hl
    rw [chunkExact.eq_def]
    have hne : ¬(l.length = 0 ∨ d = 0) := by
      push_neg
      constructor
      · rw [hl]
        exact Nat.mul_ne_zero (by omega) (by omega)
      · omega
    rw [dif_neg hne]
    have hdrop : (l.drop d).length = d * q := by
      simp only [List.length_drop, hl]
      have : d * (q + 1) = d * q + d := by ring
      omega
    obtain ⟨hfl, hlen, hmem⟩ := ih (l.drop d) hdrop
    have htake : (l.take d).length = d := by
      simp only [List.length_take]
      have : d ≤ l.length := by
        rw [hl]
        calc d = d * 1 := by ring
        _ ≤ d * (q + 1) := Nat.mul_le_mul_left d (by omega)
      omega
    refine ⟨?_, ?_, ?_⟩
    · simp only [List.flatten_cons, hfl, List.take_append_drop]
    · simp [hlen]
    · intro c hc
      rcases List.mem_cons.mp hc with hc | hc
      · rw [hc, htake]
      · exact hmem c hc

/-- Decoding then re-encoding: on byte-aligned data whose bit length is a
multiple of the degree, `decode_elem_list` succeeds and `encode_elem_list` of
the result reproduces the data. -/
theorem decode_elem_list_encode (m : Nat) (hm : 1 < m) (data : List Bool)
    (hdvd : m ∣ data.length) (h8 : BYTE_SIZE ∣ data.length) :
    ∃ vals : List Nat,
      decode_elem_list data m none = .ok vals ∧
        vals.length = data.length / m ∧ (∀ v ∈ vals, v < 2 ^ m) ∧
        encode_elem_list (vals.map fun v => (m, v)) = data := by
  obtain ⟨q, hq⟩ := hdvd
  obtain ⟨hfl, hlen, hmem⟩ := chunkExact_of_mul m (by omega) q data hq
  refine ⟨(chunkExact m data).map bitsToNat, ?_, ?_, ?_, ?_⟩
  · have hpad : data.length % m = 0 := by
      rw [hq]
      simp [Nat.mul_mod_right]
    simp [decode_elem_list, hpad, if_neg (by omega : ¬m = 1)]
  · rw [List.length_map, hlen, hq]
    rw [Nat.mul_div_cancel_left q (by omega : 0 < m)]
  · intro v hv
    simp only [List.mem_map] at hv
    obtain ⟨c, hc, hcv⟩ := hv
    rw [← hcv]
    have := bitsToNat_lt c
    rw [hmem c hc] at this
    exact this
  · have hblocks : ((((chunkExact m data).map bitsToNat).map fun v => (m, v)).map
        fun e => to_str e.1 e.2) = chunkExact m data := by
      simp only [List.map_map]
      rw [List.map_congr_left, List.map_id]
      intro c hc
      show to_str m (bitsToNat c) = c
      show natToBitsBE m (bitsToNat c) = c
      rw [← hmem c hc, natToBitsBE_bitsToNat]
    rw [encode_elem_list_eq_flatten, hblocks, hfl]
    rw [hblocks, hfl]
    exact h8

/-- Encoding then decoding: a list of in-range values of a common degree
`m > 1` whose total bit count is byte-aligned decodes back to itself. -/
theorem decode_encode_elem_list (m : Nat) (hm : 1 < m) (vals : List Nat)
    (hlt : ∀ v ∈ vals, v < 2 ^ m) (h8 : BYTE_SIZE ∣ m * vals.length) :
    decode_elem_list (encode_elem_list (vals.map fun v => (m, v))) m none =
      .ok vals := by
  have hstr : ∀ c ∈ (vals.map fun v => (m, v)).map fun e => to_str e.1 e.2,
      c.length = m := by
    intro c hc
    simp only [List.map_map, List.mem_map] at hc
    obtain ⟨v, _, hv⟩ := hc
    rw [← hv]
    exact length_to_str m v
  have hfllen : (((vals.map fun v => (m, v)).map fun e => to_str e.1 e.2)).flatten.length
      = m * vals.length := by
    rw [flatten_length_const m _ hstr]
    simp
  have henc : encode_elem_list (vals.map fun v => (m, v)) =
      ((vals.map fun v => (m, v)).map fun e => to_str e.1 e.2).flatten := by
    apply encode_elem_list_eq_flatten
    rw [hfllen]
    exact h8
  rw [henc]
  obtain ⟨hfl, hlen, hmem⟩ :=
    chunkExact_of_mul m (by omega) vals.length
      (((vals.map fun v => (m, v)).map fun e => to_str e.1 e.2).flatten) hfllen
  have hpad : (((vals.map fun v => (m, v)).map fun e => to_str e.1 e.2).flatten).length % m
      = 0 := by
    rw [hfllen]
    simp [Nat.mul_mod_right]
  simp only [decode_elem_list, hpad, if_neg (by omega : ¬m = 1)]
  have hchunks : chunkExact m
      (((vals.map fun v => (m, v)).map fun e => to_str e.1 e.2).flatten) =
      (vals.map fun v => (m, v)).map fun e => to_str e.1 e.2 :=
    chunkExact_flatten m (by omega) _ hstr
  simp only [List.drop_zero, hchunks]
  congr 1
  simp only [List.map_map]
  rw [List.map_congr_left, List.map_id]
  intro v hv
  show bitsToNat (to_str m v) = v
  exact bitsToNat_natToBitsBE m v (hlt v hv)

/-! ## Bit representation of a binary field

Sage represents an element of `F_{2^m}` by its integer representation in
`[0, 2^m)` (polynomial coefficients in the chosen basis); addition of elements
is XOR of representations.  A `BitRep K m` packages this data for an abstract
field `K`; `val` is `integer_representation` and `ofNat` is `fetch_int`. -/
structure BitRep (K : Type) [Add K] (m : Nat) where
  val : K → Nat
  ofNat : Nat → K
  val_lt : ∀ x, val x < 2 ^ m
  ofNat_val : ∀ x, ofNat (val x) = x
  val_ofNat : ∀ v, v < 2 ^ m → val (ofNat v) = v
  val_add : ∀ x y, val (x + y) = val x ^^^ val y

theorem BitRep.val_injective {K : Type} [Add K] {m : Nat} (br : BitRep K m) :
    Function.Injective br.val := by
  intro x y h
  have hx := br.ofNat_val x
  have hy := br.ofNat_val y
  rw [← hx, ← hy, h]

theorem BitRep.val_zero {K : Type} [AddCommGroup K] {m : Nat} (br : BitRep K m) :
    br.val 0 = 0 := by
  have h := br.val_add 0 0
  simp only [add_zero, Nat.xor_self] at h
  exact h

/-- Characteristic two: element-plus-itself vanishes in any field carrying a
bit representation. -/
theorem BitRep.add_self {K : Type} [AddCommGroup K] {m : Nat} (br : BitRep K m)
    (x : K) : x + x = 0 := by
  apply br.val_injective
  rw [br.val_add, br.val_zero, Nat.xor_self]

theorem BitRep.neg_eq_self {K : Type} [AddCommGroup K] {m : Nat} (br : BitRep K m)
    (x : K) : -x = x :=
  neg_eq_of_add_eq_zero_right (br.add_self x)

/-! ## A concrete field with sixteen elements

Used to instantiate the witnesses: `F_16 = F_2[x]/(x^4+x+1)` (the modulus used
by Sage for `GF(2^4)`), an element being stored by its four coefficients.  The
integer representation is the usual one: coefficient of `x^i` at bit `i`. -/

/-- Elements of the field with sixteen elements, by polynomial coefficients:
`c0 + c1*x + c2*x^2 + c3*x^3`. -/
structure GF16 where
  c0 : Bool
  c1 : Bool
  c2 : Bool
  c3 : Bool
  deriving DecidableEq

def gf16Equiv : (Bool × Bool × Bool × Bool) ≃ GF16 where
  toFun p := ⟨p.1, p.2.1, p.2.2.1, p.2.2.2⟩
  invFun a := (a.c0, a.c1, a.c2, a.c3)
  left_inv := fun _ => rfl
  right_inv := fun _ => rfl

instance : Fintype GF16 := Fintype.ofEquiv _ gf16Equiv

/-- Addition: coefficient-wise XOR. -/
def GF16.add (a b : GF16) : GF16 :=
  ⟨Bool.xor a.c0 b.c0, Bool.xor a.c1 b.c1, Bool.xor a.c2 b.c2, Bool.xor a.c3 b.c3⟩

/-- Multiplication: polynomial product reduced modulo `x^4 + x + 1`
(using `x^4 = x+1`, `x^5 = x^2+x`, `x^6 = x^3+x^2`). -/
def GF16.mul (a b : GF16) : GF16 :=
  let r0 := a.c0 && b.c0
  let r1 := Bool.xor (a.c0 && b.c1) (a.c1 && b.c0)
  let r2 := Bool.xor (a.c0 && b.c2) (Bool.xor (a.c1 && b.c1) (a.c2 && b.c0))
  let r3 := Bool.xor (a.c0 && b.c3)
    (Bool.xor (a.c1 && b.c2) (Bool.xor (a.c2 && b.c1) (a.c3 && b.c0)))
  let r4 := Bool.xor (a.c1 && b.c3) (Bool.xor (a.c2 && b.c2) (a.c3 && b.c1))
  let r5 := Bool.xor (a.c2 && b.c3) (a.c3 && b.c2)
  let r6 := a.c3 && b.c3
  ⟨Bool.xor r0 r4, Bool.xor r1 (Bool.xor r4 r5), Bool.xor r2 (Bool.xor r5 r6),
    Bool.xor r3 r6⟩

/-- Inverse as the 14th power (the group of units has order 15). -/
def GF16.inv (a : GF16) : GF16 :=
  let a2 := a.mul a
  let a4 := a2.mul a2
  let a8 := a4.mul a4
  (a8.mul a4).mul a2

instance : Zero GF16 := ⟨⟨false, false, false, false⟩⟩
instance : One GF16 := ⟨⟨true, false, false, false⟩⟩
instance : Add GF16 := ⟨GF16.add⟩
instance : Mul GF16 := ⟨GF16.mul⟩
instance : Neg GF16 := ⟨fun a => a⟩
instance : Inv GF16 := ⟨GF16.inv⟩

theorem GF16.addAssoc : ∀ a b c : GF16, (a.add b).add c = a.add (b.add c) := by
  decide

set_option maxHeartbeats 1600000 in
theorem GF16.mulAssoc : ∀ a b c : GF16, (a.mul b).mul c = a.mul (b.mul c) := by
  decide

theorem GF16.mulComm : ∀ a b : GF16, a.mul b = b.mul a := by decide

set_option maxHeartbeats 1600000 in
theorem GF16.leftDistrib :
    ∀ a b c : GF16, a.mul (b.add c) = (a.mul b).add (a.mul c) := by decide

set_option maxHeartbeats 1000000 in
instance : CommRing GF16 where
  add := GF16.add
  zero := ⟨false, false, false, false⟩
  neg a := a
  mul := GF16.mul
  one := ⟨true, false, false, false⟩
  add_assoc := GF16.addAssoc
  zero_add := by decide
  add_zero := by decide
  add_comm := by decide
  left_distrib := GF16.leftDistrib
  right_distrib := fun a b c => by
    show (a.add b).mul c = (a.mul c).add (b.mul c)
    rw [GF16.mulComm (a.add b) c, GF16.leftDistrib c a b, GF16.mulComm c a,
      GF16.mulComm c b]
  zero_mul := by decide
  mul_zero := by decide
  mul_assoc := GF16.mulAssoc
  one_mul := by decide
  mul_one := by decide
  neg_add_cancel := by decide
  mul_comm := GF16.mulComm
  nsmul := nsmulRec
  zsmul := zsmulRec

set_option maxHeartbeats 1600000 in
theorem GF16.mul_inv_cancel (a : GF16) (h : a ≠ 0) : a * a⁻¹ = 1 := by
  revert h
  revert a
  decide

set_option maxHeartbeats 1000000 in
instance : Field GF16 where
  inv := GF16.inv
  exists_pair_ne := ⟨0, 1, by decide⟩
  mul_inv_cancel := GF16.mul_inv_cancel
  inv_zero := by decide
  nnqsmul := _
  qsmul := _

/-- Integer representation of a `GF16` element. -/
def GF16.val (a : GF16) : Nat :=
  a.c0.toNat + 2 * a.c1.toNat + 4 * a.c2.toNat + 8 * a.c3.toNat

/-- Element with a given integer representation. -/
def GF16.fromNat (n : Nat) : GF16 :=
  ⟨n.testBit 0, n.testBit 1, n.testBit 2, n.testBit 3⟩

/-- Bit representation of `GF16` (degree 4). -/
def gf16Rep : BitRep GF16 4 where
  val := GF16.val
  ofNat := GF16.fromNat
  val_lt := by decide
  ofNat_val := by decide
  val_ofNat := by
    intro v hv
    have h16 : v < 16 := by simpa using hv
    interval_cases v <;> rfl
  val_add := by decide


/-! ## Matrix helpers

Sage's `Matrix.inverse()` is modelled by the adjugate formula, which agrees
with Mathlib's noncomputable inverse but evaluates. -/

variable {K : Type} [Field K] [DecidableEq K]

/-- Computable matrix inverse (Sage's `.inverse()`), by the adjugate. -/
def minv {n : Nat} (A : Matrix (Fin n) (Fin n) K) : Matrix (Fin n) (Fin n) K :=
  A.det⁻¹ • A.adjugate

theorem minv_eq_inv {n : Nat} (A : Matrix (Fin n) (Fin n) K) : minv A = A⁻¹ := by
  rw [Matrix.inv_def, Ring.inverse_eq_inv']
  rfl

theorem minv_mul {n : Nat} (A : Matrix (Fin n) (Fin n) K) (h : IsUnit A.det) :
    minv A * A = 1 := by
  rw [minv_eq_inv]
  exact Matrix.nonsing_inv_mul A h

theorem mul_minv {n : Nat} (A : Matrix (Fin n) (Fin n) K) (h : IsUnit A.det) :
    A * minv A = 1 := by
  rw [minv_eq_inv]
  exact Matrix.mul_nonsing_inv A h

/-- Row-major list of the entries of a matrix (Sage's `.list()`). -/
def matList {r c : Nat} (M : Matrix (Fin r) (Fin c) K) : List K :=
  (List.ofFn fun i => List.ofFn fun j => M i j).flatten

theorem matList_length {r c : Nat} (M : Matrix (Fin r) (Fin c) K) :
    (matList M).length = c * r := by
  unfold matList
  rw [flatten_length_const c]
  · simp
  · intro x hx
    simp only [List.mem_ofFn] at hx
    obtain ⟨i, hi⟩ := hx
    rw [← hi]
    simp

/-! ## Field-level byte codec

Instances of `encode`/`decode` from `io.py` at vector and matrix spaces over
`F_{2^m}`, going through the element codec with the `BitRep` dictionary. -/

variable {m : Nat}

/-- Encoding of a Sage vector (`encode` on the `Vector` branch):
`encode_elem_list` of its entries. -/
def encodeVec (br : BitRep K m) {n : Nat} (v : Fin n → K) : List Bool :=
  encode_elem_list ((List.ofFn v).map fun x => (m, br.val x))

/-- Encoding of a Sage matrix (`encode` on the `Matrix` branch):
`encode_elem_list` of its row-major entries. -/
def encodeMat (br : BitRep K m) {r c : Nat} (M : Matrix (Fin r) (Fin c) K) :
    List Bool :=
  encode_elem_list ((matList M).map fun x => (m, br.val x))

/-- Decoding into a vector space (`decode` on the `VectorSpace` branch):
decode all elements, then keep the last `n` of them.  The error on a
mismatching count models the downstream Sage failure when the resulting vector
does not fit the space. -/
def decodeVec (br : BitRep K m) (n : Nat) (data : List Bool) :
    Except Err (Fin n → K) :=
  match decode_elem_list data m none with
  | .error e => .error e
  | .ok vals =>
    let elems := vals.map br.ofNat
    let lastN := elems.drop (elems.length - n)
    if lastN.length = n then .ok fun i => lastN.getD i.val 0
    else .error .typeError

/-- Row-major index of entry `(i, j)` in an `r × c` matrix. -/
def entryIdx {r c : Nat} (i : Fin r) (j : Fin c) : Fin (r * c) :=
  ⟨i.val * c + j.val, by
    calc i.val * c + j.val < i.val * c + c := by omega
    _ = (i.val + 1) * c := by ring
    _ ≤ r * c := Nat.mul_le_mul_right c i.isLt⟩

/-- Decoding into a matrix space (`decode` on the `MatrixSpace` branch):
decode all elements, then keep the last `r*c` and fill the matrix row-major. -/
def decodeMat (br : BitRep K m) (r c : Nat) (data : List Bool) :
    Except Err (Matrix (Fin r) (Fin c) K) :=
  match decode_elem_list data m none with
  | .error e => .error e
  | .ok vals =>
    let elems := vals.map br.ofNat
    let lastN := elems.drop (elems.length - r * c)
    if lastN.length = r * c then
      .ok (Matrix.of fun i j => lastN.getD (entryIdx i j).val 0)
    else .error .typeError

theorem decodeVec_encodeVec (br : BitRep K m) {n : Nat} (v : Fin n → K)
    (hm : 1 < m) (h8 : BYTE_SIZE ∣ m * n) :
    decodeVec br n (encodeVec br v) = .ok v := by
  have hmap : (List.ofFn v).map (fun x => (m, br.val x)) =
      ((List.ofFn v).map br.val).map fun w => (m, w) := by
    rw [List.map_map]
    rfl
  have hlen : ((List.ofFn v).map br.val).length = n := by simp
  have hdec := decode_encode_elem_list m hm ((List.ofFn v).map br.val)
    (by
      intro w hw
      simp only [List.mem_map] at hw
      obtain ⟨x, _, hx⟩ := hw
      rw [← hx]
      exact br.val_lt x)
    (by rw [hlen]; exact h8)
  unfold decodeVec encodeVec
  rw [hmap, hdec]
  have helems : ((List.ofFn v).map br.val).map br.ofNat = List.ofFn v := by
    rw [List.map_map]
    have : br.ofNat ∘ br.val = id := by
      funext x
      exact br.ofNat_val x
    rw [this, List.map_id]
  simp only [helems]
  have hlen2 : (List.ofFn v).length = n := by simp
  simp only [hlen2, Nat.sub_self, List.drop_zero]
  simp only [if_true]
  congr 1
  funext i
  have hi : i.val < (List.ofFn v).length := by
    rw [hlen2]
    exact i.isLt
  rw [List.getD_eq_getElem _ _ hi]
  simp

theorem encodeVec_decodeVec (br : BitRep K m) (n : Nat) (data : List Bool)
    (hm : 1 < m) (hlen : data.length = m * n) (h8 : BYTE_SIZE ∣ data.length) :
    ∃ v : Fin n → K, decodeVec br n data = .ok v ∧ encodeVec br v = data := by
  obtain ⟨vals, hok, hvlen, hvlt, henc⟩ :=
    decode_elem_list_encode m hm data ⟨n, hlen⟩ h8
  have hvlen' : vals.length = n := by
    rw [hvlen, hlen, Nat.mul_div_cancel_left n (by omega : 0 < m)]
  have hmaplen : (vals.map br.ofNat).length = n := by simp [hvlen']
  refine ⟨fun i => (vals.map br.ofNat).getD i.val 0, ?_, ?_⟩
  · unfold decodeVec
    rw [hok]
    simp only [hmaplen, Nat.sub_self, List.drop_zero]
    simp only [if_true]
  · unfold encodeVec
    have hofn : List.ofFn (fun i : Fin n => (vals.map br.ofNat).getD i.val 0) =
        vals.map br.ofNat := by
      apply List.ext_get
      · simp [hmaplen]
      · intro i h1 h2
        simp only [List.get_ofFn]
        rw [List.getD_eq_getElem _ _ (by simpa using h2)]
        simp
    rw [hofn]
    have : (vals.map br.ofNat).map (fun x => (m, br.val x)) =
        vals.map fun w => (m, w) := by
      rw [List.map_map]
      apply List.map_congr_left
      intro w hw
      simp only [Function.comp_apply]
      rw [br.val_ofNat w (hvlt w hw)]
    rw [this, henc]

/-- Pointwise XOR of two flattened block lists with matching block lengths. -/
theorem zipxor_flatten (as bs : List (List Bool))
    (h : List.Forall₂ (fun a b => a.length = b.length) as bs) :
    List.zipWith Bool.xor as.flatten bs.flatten =
      (List.zipWith (List.zipWith Bool.xor) as bs).flatten := by
  induction h with
  | nil => simp
  | cons hab htail ih =>
    simp only [List.flatten_cons, List.zipWith_cons_cons]
    rw [List.zipWith_append _ _ _ _ _ hab, ih]

/-- Encoding is additive: the byte string of a sum is the XOR of the byte
strings (addition in `F_{2^m}` is XOR of integer representations). -/
theorem encodeVec_add (br : BitRep K m) {n : Nat} (u v : Fin n → K)
    (h8 : BYTE_SIZE ∣ m * n) :
    encodeVec br (u + v) =
      List.zipWith Bool.xor (encodeVec br u) (encodeVec br v) := by
  have hflat : ∀ w : Fin n → K, encodeVec br w =
      (List.ofFn fun i => natToBitsBE m (br.val (w i))).flatten := by
    intro w
    unfold encodeVec
    rw [encode_elem_list_eq_flatten]
    · rw [List.map_map, List.map_ofFn]
      rfl
    · rw [List.map_map, List.map_ofFn]
      rw [flatten_length_const m]
      · simpa using h8
      · intro x hx
        simp only [List.mem_ofFn] at hx
        obtain ⟨y, hy⟩ := hx
        rw [← hy]
        exact length_natToBitsBE _ _
  rw [hflat, hflat, hflat]
  have hf2 : List.Forall₂ (fun a b => List.length a = List.length b)
      (List.ofFn fun i => natToBitsBE m (br.val (u i)))
      (List.ofFn fun i => natToBitsBE m (br.val (v i))) := by
    rw [List.forall₂_iff_get]
    refine ⟨by simp, ?_⟩
    intro i h1 h2
    simp [length_natToBitsBE]
  rw [zipxor_flatten _ _ hf2]
  congr 1
  have hzip : List.zipWith (List.zipWith Bool.xor)
      (List.ofFn fun i => natToBitsBE m (br.val (u i)))
      (List.ofFn fun i => natToBitsBE m (br.val (v i))) =
      List.ofFn fun i =>
        List.zipWith Bool.xor (natToBitsBE m (br.val (u i)))
          (natToBitsBE m (br.val (v i))) := by
    apply List.ext_get
    · simp
    · intro i h1 h2
      simp [List.get_ofFn]
  rw [hzip]
  congr 1
  funext i
  show natToBitsBE m (br.val (u i + v i)) = _
  rw [br.val_add, natToBitsBE_xor]

theorem length_encodeVec (br : BitRep K m) {n : Nat} (v : Fin n → K) :
    (encodeVec br v).length = BYTE_SIZE * ((m * n + (BYTE_SIZE - 1)) / BYTE_SIZE) := by
  unfold encodeVec
  rw [length_encode_elem_list]
  congr 2
  rw [List.map_map, List.map_ofFn]
  rw [flatten_length_const m]
  · simp [Nat.mul_comm]
  · intro x hx
    simp only [List.mem_ofFn] at hx
    obtain ⟨y, hy⟩ := hx
    rw [← hy]
    exact length_natToBitsBE _ _

theorem length_encodeVec_of_dvd (br : BitRep K m) {n : Nat} (v : Fin n → K)
    (h8 : BYTE_SIZE ∣ m * n) : (encodeVec br v).length = m * n := by
  obtain ⟨q, hq⟩ := h8
  rw [length_encodeVec, hq]
  show 8 * ((8 * q + 7) / 8) = 8 * q
  omega

/-! ## Gabidulin codes

Sage's `GabidulinCode` as used by `key.py` and `cipher.py`: the generator
matrix from the evaluation points, and `unencode`, which solves
`msg · G = c` on an information set (the first `k` positions, which form one
whenever the evaluation points are linearly independent over `F_2`). -/

/-- Generator matrix of the Gabidulin code: entry `(i, j)` is the `2^i`-th
power of the `j`-th evaluation point. -/
def gabGen (k : Nat) {n : Nat} (g : Fin n → K) : Matrix (Fin k) (Fin n) K :=
  Matrix.of fun i j => g j ^ 2 ^ i.val

/-- Matrix of the first `k` columns of a `k × n` matrix. -/
def firstCols {k n : Nat} (hkn : k ≤ n) (G : Matrix (Fin k) (Fin n) K) :
    Matrix (Fin k) (Fin k) K :=
  Matrix.of fun i j => G i (Fin.castLE hkn j)

/-- Solving `msg · G = c` for `msg` by inverting on the first `k` positions
(Sage's `unencode` on a code whose information set is the first `k`
positions). -/
def unencode {k n : Nat} (hkn : k ≤ n) (G : Matrix (Fin k) (Fin n) K)
    (c : Fin n → K) : Fin k → K :=
  Matrix.vecMul (fun j => c (Fin.castLE hkn j)) (minv (firstCols hkn G))

theorem unencode_encode {k n : Nat} (hkn : k ≤ n) (G : Matrix (Fin k) (Fin n) K)
    (msg : Fin k → K) (hG : IsUnit (firstCols hkn G).det) :
    unencode hkn G (Matrix.vecMul msg G) = msg := by
  unfold unencode
  have h1 : (fun j => Matrix.vecMul msg G (Fin.castLE hkn j)) =
      Matrix.vecMul msg (firstCols hkn G) := rfl
  rw [h1, Matrix.vecMul_vecMul, mul_minv _ hG, Matrix.vecMul_one]

/-! ## Keys (`key.py`) -/

/-- Model of `SecretKey` from `key.py`: the Gabidulin code (kept as its
evaluation points), the row scrambler `s`, the column scrambler `p` and the
subspace dimension. -/
structure SecretKey (K : Type) (n k : Nat) where
  points : Fin n → K
  s : Matrix (Fin k) (Fin k) K
  p : Matrix (Fin n) (Fin n) K
  delta : Nat

/-- Model of `PublicKey` from `key.py`: the public generator matrix and the
subspace dimension. -/
structure PublicKey (K : Type) (n k : Nat) where
  g : Matrix (Fin k) (Fin n) K
  delta : Nat

/-- Model of `SecretKey.public_key`: the derived generator matrix is
`s⁻¹ · G(c) · p⁻¹`. -/
def SecretKey.publicKey {n k : Nat} (sk : SecretKey K n k) : PublicKey K n k :=
  ⟨minv sk.s * gabGen k sk.points * minv sk.p, sk.delta⟩

/-- Model of `_select_parameters` from `key.py`. -/
def selectParameters (level : Nat) : Except Err (Nat × Nat × Nat × Nat) :=
  if level = 128 then .ok (64, 58, 28, 3)
  else if level = 192 then .ok (96, 62, 32, 3)
  else if level = 256 then .ok (128, 64, 28, 3)
  else .error .valueError

/-- Body of `generate` from `key.py` after parameter selection, with the
sampled objects passed explicitly: `points` are the sampled independent
evaluation points, `s0` the sampled invertible row scrambler, `p` the sampled
invertible subspace matrix.  The source computes
`t = s0 · G(c) · p⁻¹` and stores the rescaled row scrambler
`s = s0⁻¹ · t.submatrix(ncols=k)`. -/
def generateCore {n k : Nat} (hkn : k ≤ n) (points : Fin n → K)
    (s0 : Matrix (Fin k) (Fin k) K) (p : Matrix (Fin n) (Fin n) K)
    (delta : Nat) : SecretKey K n k :=
  let t := s0 * gabGen k points * minv p
  ⟨points, minv s0 * firstCols hkn t, p, delta⟩

theorem firstCols_mul {k n : Nat} (hkn : k ≤ n) (A : Matrix (Fin k) (Fin k) K)
    (M : Matrix (Fin k) (Fin n) K) :
    firstCols hkn (A * M) = A * firstCols hkn M := by
  ext i j
  simp [firstCols, Matrix.mul_apply]

/-- Generator matrix of the public key derived from a generated secret key:
`t₁⁻¹ · t` where `t = s0 · G · p⁻¹`. -/
theorem generateCore_publicKey_g {n k : Nat} (hkn : k ≤ n) (points : Fin n → K)
    (s0 : Matrix (Fin k) (Fin k) K) (p : Matrix (Fin n) (Fin n) K) (delta : Nat)
    (hs0 : IsUnit s0.det) :
    (generateCore hkn points s0 p delta).publicKey.g =
      minv (firstCols hkn (s0 * gabGen k points * minv p)) *
        (s0 * gabGen k points * minv p) := by
  unfold generateCore SecretKey.publicKey
  simp only
  set T := s0 * gabGen k points * minv p with hT
  have h1 : minv (minv s0 * firstCols hkn T) = minv (firstCols hkn T) * s0 := by
    rw [minv_eq_inv, minv_eq_inv, minv_eq_inv, Matrix.mul_inv_rev,
      Matrix.nonsing_inv_nonsing_inv _ hs0]
  rw [h1, hT]
  simp only [Matrix.mul_assoc]

/-- First `k` columns of a generated public key form the identity. -/
theorem generateCore_systematic {n k : Nat} (hkn : k ≤ n) (points : Fin n → K)
    (s0 : Matrix (Fin k) (Fin k) K) (p : Matrix (Fin n) (Fin n) K) (delta : Nat)
    (hs0 : IsUnit s0.det)
    (hT1 : IsUnit (firstCols hkn (s0 * gabGen k points * minv p)).det) :
    firstCols hkn (generateCore hkn points s0 p delta).publicKey.g = 1 := by
  rw [generateCore_publicKey_g hkn points s0 p delta hs0, firstCols_mul,
    minv_mul _ hT1]

/-! ## ASN.1 DER (the byte layer provided by pycryptodome)

`key.py` serializes through pycryptodome's `DerSequence`, `DerOctetString`,
`DerBitString` and integer elements.  The definite-length DER encoding these
produce is modelled here directly on bit strings (`natToBitsBE 8` is one
byte). -/

/-- Minimal number of bytes representing a natural number (at least one). -/
def byteLenNat (n : Nat) : Nat :=
  if _h : n < 256 then 1 else 1 + byteLenNat (n / 256)
termination_by n
decreasing_by
  omega

theorem byteLenNat_pos (n : Nat) : 0 < byteLenNat n := by
  rw [byteLenNat]
  split
  · omega
  · omega

theorem lt_two_pow_byteLenNat (n : Nat) : n < 2 ^ (8 * byteLenNat n) := by
  induction n using Nat.strong_induction_on with
  | _ n ih =>
    rw [byteLenNat]
    split
    · rename_i h
      omega
    · rename_i h
      have hdiv : n / 256 < n := by omega
      have := ih (n / 256) hdiv
      have h2 : 8 * (1 + byteLenNat (n / 256)) = 8 + 8 * byteLenNat (n / 256) := by
        ring
      rw [h2, pow_add]
      have : n < 256 * 2 ^ (8 * byteLenNat (n / 256)) := by
        have hq := Nat.div_add_mod n 256
        have hm : n % 256 < 256 := Nat.mod_lt _ (by omega)
        calc n = 256 * (n / 256) + n % 256 := by omega
        _ < 256 * (n / 256) + 256 := by omega
        _ = 256 * (n / 256 + 1) := by ring
        _ ≤ 256 * 2 ^ (8 * byteLenNat (n / 256)) := by
            apply Nat.mul_le_mul_left
            omega
      simpa [pow_succ] using this

/-- Minimal big-endian byte string of a natural number (`long_to_bytes`; one
zero byte for `0`). -/
def natToBytesBE (n : Nat) : List Bool := natToBitsBE (8 * byteLenNat n) n

/-- DER definite-length field for a content length of `n` bytes. -/
def derLen (n : Nat) : List Bool :=
  if n < 128 then natToBitsBE 8 n
  else natToBitsBE 8 (128 + byteLenNat n) ++ natToBytesBE n

/-- DER tag-length-value encoding; `payload` must be byte-aligned. -/
def derTLV (tag : Nat) (payload : List Bool) : List Bool :=
  natToBitsBE 8 tag ++ derLen (payload.length / 8) ++ payload

/-- Model of pycryptodome `DerOctetString(payload).encode()`. -/
def derOctetString (payload : List Bool) : List Bool := derTLV 4 payload

/-- Model of pycryptodome `DerBitString(value).encode()`: the content is one
zero byte (no unused bits) followed by the value. -/
def derBitString (value : List Bool) : List Bool :=
  derTLV 3 (natToBitsBE 8 0 ++ value)

/-- Payload of a DER INTEGER for a non-negative value: minimal big-endian
bytes, with a leading zero byte when the top bit is set. -/
def derIntPayload (n : Nat) : List Bool :=
  if (natToBytesBE n).getD 0 false then natToBitsBE 8 0 ++ natToBytesBE n
  else natToBytesBE n

/-- Model of a DER INTEGER element of a pycryptodome `DerSequence`. -/
def derInteger (n : Nat) : List Bool := derTLV 2 (derIntPayload n)

/-- Model of pycryptodome `DerSequence(items).encode()` where each item is
already encoded. -/
def derSequence (items : List (List Bool)) : List Bool :=
  derTLV 48 items.flatten

/-- Parser of one TLV: returns the tag, the content, the raw encoding
consumed, and the remaining input.  Accepts the definite-length forms that the
encoder above produces. -/
def parseTLV (l : List Bool) : Except Err (Nat × List Bool × List Bool × List Bool) :=
  if 8 ≤ l.length then
    let tag := bitsToNat (l.take 8)
    let r1 := l.drop 8
    if 8 ≤ r1.length then
      let b0 := bitsToNat (r1.take 8)
      let r2 := r1.drop 8
      if b0 < 128 then
        if 8 * b0 ≤ r2.length then
          .ok (tag, r2.take (8 * b0), l.take (16 + 8 * b0), r2.drop (8 * b0))
        else .error .valueError
      else
        let nb := b0 - 128
        if 8 * nb ≤ r2.length then
          let len := bitsToNat (r2.take (8 * nb))
          let r3 := r2.drop (8 * nb)
          if 8 * len ≤ r3.length then
            .ok (tag, r3.take (8 * len), l.take (16 + 8 * nb + 8 * len),
              r3.drop (8 * len))
          else .error .valueError
        else .error .valueError
    else .error .valueError
  else .error .valueError

/-- Splitting a concatenation of TLVs into the raw encodings of the items
(pycryptodome `DerSequence` content walk); `fuel` bounds the recursion. -/
def splitTLVs (fuel : Nat) (l : List Bool) : Except Err (List (List Bool)) :=
  match fuel with
  | 0 => if l.length = 0 then .ok [] else .error .valueError
  | fuel + 1 =>
    if l.length = 0 then .ok []
    else
      match parseTLV l with
      | .error e => .error e
      | .ok (_, _, raw, rest) =>
        match splitTLVs fuel rest with
        | .error e => .error e
        | .ok items => .ok (raw :: items)

/-- Model of pycryptodome `DerSequence().decode(data)` keeping each element as
its raw encoding: the outer tag must be `0x30` and the data must be consumed
exactly. -/
def parseDerSequence (data : List Bool) : Except Err (List (List Bool)) :=
  match parseTLV data with
  | .error e => .error e
  | .ok (tag, payload, _, rest) =>
    if tag = 48 ∧ rest.length = 0 then splitTLVs payload.length payload
    else .error .valueError

/-- Model of pycryptodome `DerOctetString().decode(item).payload`. -/
def parseDerOctetString (item : List Bool) : Except Err (List Bool) :=
  match parseTLV item with
  | .error e => .error e
  | .ok (tag, payload, _, rest) =>
    if tag = 4 ∧ rest.length = 0 then .ok payload else .error .valueError

/-- Model of pycryptodome `DerBitString().decode(item).payload` (the payload
keeps its leading unused-bits byte). -/
def parseDerBitString (item : List Bool) : Except Err (List Bool) :=
  match parseTLV item with
  | .error e => .error e
  | .ok (tag, payload, _, rest) =>
    if tag = 3 ∧ rest.length = 0 then .ok payload else .error .valueError

/-- Value of an INTEGER element of a decoded `DerSequence`. -/
def parseDerInt (item : List Bool) : Except Err Nat :=
  match parseTLV item with
  | .error e => .error e
  | .ok (tag, payload, _, rest) =>
    if tag = 2 ∧ rest.length = 0 then .ok (bitsToNat payload)
    else .error .valueError

theorem take_app {α : Type} (l1 l2 : List α) (k : Nat) (h : l1.length = k) :
    (l1 ++ l2).take k = l1 := by
  subst h
  exact List.take_left l1 l2

theorem drop_app {α : Type} (l1 l2 : List α) (k : Nat) (h : l1.length = k) :
    (l1 ++ l2).drop k = l2 := by
  subst h
  exact List.drop_left l1 l2

theorem derLen_length_short (n : Nat) (h : n < 128) : (derLen n).length = 8 := by
  unfold derLen
  rw [if_pos h]
  exact length_natToBitsBE 8 n

theorem derLen_length_long (n : Nat) (h : ¬n < 128) :
    (derLen n).length = 8 + 8 * byteLenNat n := by
  unfold derLen
  rw [if_neg h]
  simp [natToBytesBE, length_natToBitsBE]

/-- Condition on a TLV that the parser recovers: tag in one byte, content
byte-aligned, length field within the supported sizes. -/
def WfTLV (tag : Nat) (payload : List Bool) : Prop :=
  tag < 256 ∧ BYTE_SIZE ∣ payload.length ∧
    byteLenNat (payload.length / 8) < 128

theorem parseTLV_derTLV (tag : Nat) (payload rest : List Bool)
    (hwf : WfTLV tag payload) :
    parseTLV (derTLV tag payload ++ rest) =
      .ok (tag, payload, derTLV tag payload, rest) := by
  obtain ⟨htag, h8, hsmall⟩ := hwf
  obtain ⟨q, hq0⟩ := h8
  have hq : payload.length = 8 * q := hq0
  have hq8 : payload.length / 8 = q := by
    rw [hq]
    omega
  have htagbits : bitsToNat (natToBitsBE 8 tag) = tag :=
    bitsToNat_natToBitsBE 8 tag (by simpa using htag)
  by_cases hform : q < 128
  · -- short length form
    have hlen : derLen (payload.length / 8) = natToBitsBE 8 q := by
      rw [hq8]
      unfold derLen
      rw [if_pos hform]
    have hL : derTLV tag payload ++ rest =
        natToBitsBE 8 tag ++ (natToBitsBE 8 q ++ (payload ++ rest)) := by
      unfold derTLV
      rw [hlen]
      simp [List.append_assoc]
    unfold parseTLV
    rw [hL]
    have h1 : (natToBitsBE 8 tag ++ (natToBitsBE 8 q ++ (payload ++ rest))).length =
        8 + (8 + (payload.length + rest.length)) := by
      simp [length_natToBitsBE]
    rw [if_pos (by omega)]
    rw [take_app _ _ 8 (length_natToBitsBE 8 tag),
      drop_app _ _ 8 (length_natToBitsBE 8 tag)]
    rw [if_pos (by simp [length_natToBitsBE])]
    rw [take_app _ _ 8 (length_natToBitsBE 8 q),
      drop_app _ _ 8 (length_natToBitsBE 8 q)]
    have hbq : bitsToNat (natToBitsBE 8 q) = q :=
      bitsToNat_natToBitsBE 8 q (by omega)
    rw [hbq]
    rw [if_pos hform]
    have hlen8q : 8 * q = payload.length := hq.symm
    rw [if_pos (by simp [← hlen8q])]
    rw [take_app payload rest (8 * q) hlen8q.symm,
      drop_app payload rest (8 * q) hlen8q.symm]
    have hraw : (natToBitsBE 8 tag ++ (natToBitsBE 8 q ++ (payload ++ rest))).take
        (16 + 8 * q) = derTLV tag payload := by
      have : natToBitsBE 8 tag ++ (natToBitsBE 8 q ++ (payload ++ rest)) =
          derTLV tag payload ++ rest := by
        rw [hL]
      rw [this]
      apply take_app
      unfold derTLV
      rw [hlen]
      simp only [List.length_append, length_natToBitsBE]
      omega
    rw [hraw, htagbits]
  · -- long length form
    set b := byteLenNat q with hb
    have hb1 : 0 < b := byteLenNat_pos q
    have hlen : derLen (payload.length / 8) =
        natToBitsBE 8 (128 + b) ++ natToBitsBE (8 * b) q := by
      rw [hq8]
      unfold derLen
      rw [if_neg hform]
      rfl
    have hL : derTLV tag payload ++ rest =
        natToBitsBE 8 tag ++ (natToBitsBE 8 (128 + b) ++
          (natToBitsBE (8 * b) q ++ (payload ++ rest))) := by
      unfold derTLV
      rw [hlen]
      simp [List.append_assoc]
    unfold parseTLV
    rw [hL]
    rw [if_pos (by simp [length_natToBitsBE])]
    rw [take_app _ _ 8 (length_natToBitsBE 8 tag),
      drop_app _ _ 8 (length_natToBitsBE 8 tag)]
    rw [if_pos (by simp [length_natToBitsBE])]
    rw [take_app _ _ 8 (length_natToBitsBE 8 (128 + b)),
      drop_app _ _ 8 (length_natToBitsBE 8 (128 + b))]
    have hsmall' : b < 128 := by
      rw [hb, ← hq8]
      exact hsmall
    have hb0 : bitsToNat (natToBitsBE 8 (128 + b)) = 128 + b :=
      bitsToNat_natToBitsBE 8 (128 + b) (by omega)
    rw [hb0]
    rw [if_neg (by omega)]
    have hnb : 128 + b - 128 = b := by omega
    rw [hnb]
    rw [if_pos (by simp [length_natToBitsBE])]
    rw [take_app _ _ (8 * b) (length_natToBitsBE (8 * b) q),
      drop_app _ _ (8 * b) (length_natToBitsBE (8 * b) q)]
    have hq2 : bitsToNat (natToBitsBE (8 * b) q) = q := by
      apply bitsToNat_natToBitsBE
      rw [hb]
      exact lt_two_pow_byteLenNat q
    rw [hq2]
    have hlen8q : 8 * q = payload.length := hq.symm
    rw [if_pos (by simp [← hlen8q])]
    rw [take_app payload rest (8 * q) hlen8q.symm,
      drop_app payload rest (8 * q) hlen8q.symm]
    have hraw : (natToBitsBE 8 tag ++ (natToBitsBE 8 (128 + b) ++
        (natToBitsBE (8 * b) q ++ (payload ++ rest)))).take (16 + 8 * b + 8 * q) =
        derTLV tag payload := by
      have heq : natToBitsBE 8 tag ++ (natToBitsBE 8 (128 + b) ++
          (natToBitsBE (8 * b) q ++ (payload ++ rest))) =
          derTLV tag payload ++ rest := by
        rw [hL]
      rw [heq]
      apply take_app
      unfold derTLV
      rw [hlen]
      simp only [List.length_append, length_natToBitsBE]
      omega
    rw [hraw, htagbits]

theorem derTLV_length (tag : Nat) (payload : List Bool) :
    16 ≤ (derTLV tag payload).length := by
  unfold derTLV
  simp only [List.length_append, length_natToBitsBE]
  by_cases h : payload.length / 8 < 128
  · rw [derLen_length_short _ h]
    omega
  · rw [derLen_length_long _ h]
    omega

theorem splitTLVs_flatten (items : List (List Bool)) (fuel : Nat)
    (hfuel : items.length ≤ fuel)
    (hwf : ∀ it ∈ items, ∃ tag payload, WfTLV tag payload ∧ it = derTLV tag payload) :
    splitTLVs fuel items.flatten = .ok items := by
  induction items generalizing fuel with
  | nil =>
    cases fuel with
    | zero => simp [splitTLVs]
    | succ fuel => simp [splitTLVs]
  | cons it rest ih =>
    obtain ⟨tag, payload, hwf1, hit⟩ := hwf it (by simp)
    cases fuel with
    | zero => simp at hfuel
    | succ fuel =>
      have hlen : it.length ≠ 0 := by
        rw [hit]
        have := derTLV_length tag payload
        omega
      show splitTLVs (fuel + 1) (it :: rest).flatten = .ok (it :: rest)
      have hflat : (it :: rest).flatten = it ++ rest.flatten := by simp
      rw [hflat, hit]
      have hpt := parseTLV_derTLV tag payload rest.flatten hwf1
      have hne : ¬(derTLV tag payload ++ rest.flatten).length = 0 := by
        simp only [List.length_append]
        have := derTLV_length tag payload
        omega
      have hih := ih fuel (by simpa using hfuel) (fun x hx => hwf x (by simp [hx]))
      simp only [splitTLVs, if_neg hne, hpt, hih]

theorem byteLenNat_le (n k : Nat) (hk : 0 < k) (h : n < 2 ^ (8 * k)) :
    byteLenNat n ≤ k := by
  induction n using Nat.strong_induction_on generalizing k with
  | _ n ih =>
    rw [byteLenNat]
    split
    · omega
    · rename_i hn
      rcases Nat.lt_or_ge k 2 with hk2 | hk2
      · exfalso
        have : k = 1 := by omega
        subst this
        simp at h
        omega
      · have hdiv : n / 256 < n := by omega
        have hlt : n / 256 < 2 ^ (8 * (k - 1)) := by
          have h256 : (256 : Nat) = 2 ^ 8 := by norm_num
          have : n < 2 ^ 8 * 2 ^ (8 * (k - 1)) := by
            rw [← pow_add]
            have : 8 + 8 * (k - 1) = 8 * k := by omega
            rw [this]
            exact h
          rw [h256] at hn ⊢
          omega
        have := ih (n / 256) hdiv (k - 1) (by omega) hlt
        omega

/-- Byte strings of moderate length (far beyond anything a key produces);
keeps the DER length fields within 127 length bytes. -/
def DerSmall (l : List Bool) : Prop := l.length / 8 < 2 ^ 1000

theorem byteLenNat_lt_128 (x : Nat) (h : x < 2 ^ 1008) : byteLenNat x < 128 := by
  have h126 : x < 2 ^ (8 * 126) := by
    calc x < 2 ^ 1008 := h
    _ ≤ 2 ^ (8 * 126) := Nat.pow_le_pow_right (by omega) (by omega)
  have := byteLenNat_le x 126 (by omega) h126
  omega

theorem derSmall_lt (l : List Bool) (h : DerSmall l) : l.length / 8 < 2 ^ 1008 := by
  unfold DerSmall at h
  omega

theorem length_le_flatten (items : List (List Bool))
    (h : ∀ it ∈ items, it ≠ []) : items.length ≤ items.flatten.length := by
  induction items with
  | nil => simp
  | cons it rest ih =>
    have h1 : it ≠ [] := h it (by simp)
    have h2 : 1 ≤ it.length := by
      cases it with
      | nil => exact absurd rfl h1
      | cons a l => simp
    have := ih fun x hx => h x (by simp [hx])
    simp only [List.flatten_cons, List.length_append, List.length_cons]
    omega

theorem parseDerSequence_derSequence (items : List (List Bool))
    (hwf : ∀ it ∈ items, ∃ tag payload, WfTLV tag payload ∧ it = derTLV tag payload)
    (h8 : BYTE_SIZE ∣ items.flatten.length)
    (hbig : DerSmall items.flatten) :
    parseDerSequence (derSequence items) = .ok items := by
  have hwfs : WfTLV 48 items.flatten :=
    ⟨by omega, h8, byteLenNat_lt_128 _ (derSmall_lt _ hbig)⟩
  have h := parseTLV_derTLV 48 items.flatten [] hwfs
  rw [List.append_nil] at h
  have hcount : items.length ≤ items.flatten.length := by
    apply length_le_flatten
    intro it hit
    obtain ⟨tag, payload, _, heq⟩ := hwf it hit
    intro hnil
    have := derTLV_length tag payload
    rw [← heq, hnil] at this
    simp at this
  unfold parseDerSequence derSequence
  rw [h]
  show (if 48 = 48 ∧ ([] : List Bool).length = 0 then _ else _) = _
  rw [if_pos (by simp)]
  exact splitTLVs_flatten items items.flatten.length hcount hwf

theorem parseDerOctetString_enc (payload : List Bool)
    (h8 : BYTE_SIZE ∣ payload.length) (hbig : DerSmall payload) :
    parseDerOctetString (derOctetString payload) = .ok payload := by
  have h := parseTLV_derTLV 4 payload [] ⟨by omega, h8, byteLenNat_lt_128 _ (derSmall_lt _ hbig)⟩
  rw [List.append_nil] at h
  unfold parseDerOctetString derOctetString
  rw [h]
  show (if 4 = 4 ∧ ([] : List Bool).length = 0 then _ else _) = _
  rw [if_pos (by simp)]

theorem parseDerBitString_enc (value : List Bool)
    (h8 : BYTE_SIZE ∣ value.length) (hbig : DerSmall value) :
    parseDerBitString (derBitString value) = .ok (natToBitsBE 8 0 ++ value) := by
  have h8' : BYTE_SIZE ∣ (natToBitsBE 8 0 ++ value).length := by
    obtain ⟨q, hq⟩ := h8
    refine ⟨q + 1, ?_⟩
    simp only [List.length_append, length_natToBitsBE, hq]
    show 8 + 8 * q = 8 * (q + 1)
    ring
  have hlt : (natToBitsBE 8 0 ++ value).length / 8 < 2 ^ 1008 := by
    simp only [List.length_append, length_natToBitsBE]
    unfold DerSmall at hbig
    omega
  have h := parseTLV_derTLV 3 (natToBitsBE 8 0 ++ value) []
    ⟨by omega, h8', byteLenNat_lt_128 _ hlt⟩
  rw [List.append_nil] at h
  unfold parseDerBitString derBitString
  rw [h]
  show (if 3 = 3 ∧ ([] : List Bool).length = 0 then _ else _) = _
  rw [if_pos (by simp)]

theorem length_derIntPayload_dvd (n : Nat) : BYTE_SIZE ∣ (derIntPayload n).length := by
  unfold derIntPayload natToBytesBE
  split
  · refine ⟨1 + byteLenNat n, ?_⟩
    simp only [List.length_append, length_natToBitsBE]
    show 8 + 8 * byteLenNat n = 8 * (1 + byteLenNat n)
    ring
  · refine ⟨byteLenNat n, ?_⟩
    simp only [length_natToBitsBE]
    rfl

theorem bitsToNat_derIntPayload (n : Nat) : bitsToNat (derIntPayload n) = n := by
  have hval : bitsToNat (natToBytesBE n) = n := by
    apply bitsToNat_natToBitsBE
    exact lt_two_pow_byteLenNat n
  unfold derIntPayload
  split
  · rw [bitsToNat_append, hval]
    have : bitsToNat (natToBitsBE 8 0) = 0 := by
      rw [bitsToNat_natToBitsBE 8 0 (by omega)]
    rw [this]
    simp
  · exact hval

theorem parseDerInt_enc (n : Nat) (hn : n < 2 ^ 1000) :
    parseDerInt (derInteger n) = .ok n := by
  have hbig : DerSmall (derIntPayload n) := by
    unfold DerSmall
    have hb : byteLenNat n ≤ 125 := by
      apply byteLenNat_le n 125 (by omega)
      calc n < 2 ^ 1000 := hn
      _ ≤ 2 ^ (8 * 125) := Nat.pow_le_pow_right (by omega) (by omega)
    unfold derIntPayload natToBytesBE
    split
    · simp only [List.length_append, length_natToBitsBE]
      have : (8 + 8 * byteLenNat n) / 8 = 1 + byteLenNat n := by omega
      rw [this]
      have : (2:Nat) ^ 1000 > 126 := by
        calc (126:Nat) < 2 ^ 7 := by norm_num
        _ ≤ 2 ^ 1000 := Nat.pow_le_pow_right (by omega) (by omega)
      omega
    · simp only [length_natToBitsBE]
      have h1 : (8 * byteLenNat n) / 8 = byteLenNat n := by omega
      rw [h1]
      have : (2:Nat) ^ 1000 > 125 := by
        calc (125:Nat) < 2 ^ 7 := by norm_num
        _ ≤ 2 ^ 1000 := Nat.pow_le_pow_right (by omega) (by omega)
      omega
  have h := parseTLV_derTLV 2 (derIntPayload n) []
    ⟨by omega, length_derIntPayload_dvd n, byteLenNat_lt_128 _ (derSmall_lt _ hbig)⟩
  rw [List.append_nil] at h
  unfold parseDerInt derInteger
  rw [h]
  show (if 2 = 2 ∧ ([] : List Bool).length = 0 then _ else _) = _
  rw [if_pos (by simp)]
  rw [bitsToNat_derIntPayload]

/-! ## Key serialization (`key.py` export/import)

The imported key is reported as lists (its dimensions are read from the DER
data, so they cannot be fixed in the type).  The PEM armor (base64) applied by
pycryptodome is an external bijection between DER bytes and text, modelled by
carrying the DER bytes next to the marker. -/

/-- Rows of a matrix as lists (row-major). -/
def matRows {r c : Nat} (M : Matrix (Fin r) (Fin c) K) : List (List K) :=
  List.ofFn fun i => List.ofFn fun j => M i j

/-- Decoding into a matrix space, keeping the result as its list of rows and
the degree explicit (the import path reads the degree from the DER data). -/
def decodeMatRows (br : BitRep K m) (deg r c : Nat) (data : List Bool) :
    Except Err (List (List K)) :=
  match decode_elem_list data deg none with
  | .error e => .error e
  | .ok vals =>
    let elems := vals.map br.ofNat
    let lastN := elems.drop (elems.length - r * c)
    if lastN.length = r * c then .ok (chunkExact c lastN) else .error .typeError

/-- Model of `SecretKey.export_der`: the DER sequence of the encoded
evaluation points, row scrambler, column scrambler and parameters. -/
def exportSecretDer (br : BitRep K m) {n k : Nat} (sk : SecretKey K n k) :
    List Bool :=
  derSequence [
    derOctetString (encode_elem_list ((List.ofFn sk.points).map fun x => (m, br.val x))),
    derOctetString (encodeMat br sk.s),
    derOctetString (encodeMat br sk.p),
    derSequence [derInteger m, derInteger n, derInteger k, derInteger sk.delta]]

/-- Model of `PublicKey.export_der`: the DER sequence of the bit string
holding the right block `g.submatrix(0, k)` (the columns from `k` on) and the
parameters. -/
def rightBlock {n k : Nat} (hkn : k ≤ n) (g : Matrix (Fin k) (Fin n) K) :
    Matrix (Fin k) (Fin (n - k)) K :=
  Matrix.of fun i j => g i ⟨k + j.val, by omega⟩

def exportPublicDer (br : BitRep K m) {n k : Nat} (hkn : k ≤ n)
    (pk : PublicKey K n k) : List Bool :=
  derSequence [
    derBitString (encodeMat br (rightBlock hkn pk.g)),
    derSequence [derInteger m, derInteger n, derInteger k, derInteger pk.delta]]

/-- Components of an imported secret key (dimensions read from the data). -/
structure SecretKeyData (K : Type) where
  m : Nat
  n : Nat
  k : Nat
  delta : Nat
  points : List K
  s : List (List K)
  p : List (List K)
  deriving DecidableEq

/-- Components of an imported public key. -/
structure PublicKeyData (K : Type) where
  m : Nat
  n : Nat
  k : Nat
  delta : Nat
  g : List (List K)
  deriving DecidableEq

/-- Components of a typed secret key, for comparison with an import. -/
def skData (mdeg : Nat) {n k : Nat} (sk : SecretKey K n k) : SecretKeyData K :=
  ⟨mdeg, n, k, sk.delta, List.ofFn sk.points, matRows sk.s, matRows sk.p⟩

/-- Components of a typed public key, for comparison with an import. -/
def pkData (mdeg : Nat) {n k : Nat} (pk : PublicKey K n k) : PublicKeyData K :=
  ⟨mdeg, n, k, pk.delta, matRows pk.g⟩

/-- Model of `import_secret_der`: parse the outer sequence, take the payloads
of the three octet strings and the four parameter integers, then decode the
evaluation points and the two scrambler matrices. -/
def importSecretDer (br : BitRep K m) (data : List Bool) :
    Except Err (SecretKeyData K) := do
  let items ← parseDerSequence data
  match items with
  | [i0, i1, i2, params] =>
    let key0 ← parseDerOctetString i0
    let key1 ← parseDerOctetString i1
    let key2 ← parseDerOctetString i2
    let paramItems ← parseDerSequence params
    match paramItems with
    | [pm, pn, pk', pd] =>
      let mdeg ← parseDerInt pm
      let len ← parseDerInt pn
      let dim ← parseDerInt pk'
      let delta ← parseDerInt pd
      let pointVals ← decode_elem_list key0 mdeg none
      let s ← decodeMatRows br mdeg dim dim key1
      let p ← decodeMatRows br mdeg len len key2
      pure ⟨mdeg, len, dim, delta, pointVals.map br.ofNat, s, p⟩
    | _ => throw Err.valueError
  | _ => throw Err.valueError

/-- Model of `import_public_der`: parse the outer sequence, strip the
unused-bits byte of the bit string (`payload[1:]`), read the parameters,
decode the right block and augment an identity block on the left. -/
def importPublicDer (br : BitRep K m) (data : List Bool) :
    Except Err (PublicKeyData K) := do
  let items ← parseDerSequence data
  match items with
  | [i0, params] =>
    let bs ← parseDerBitString i0
    let key := bs.drop 8
    let paramItems ← parseDerSequence params
    match paramItems with
    | [pm, pn, pk', pd] =>
      let mdeg ← parseDerInt pm
      let len ← parseDerInt pn
      let dim ← parseDerInt pk'
      let delta ← parseDerInt pd
      let right ← decodeMatRows br mdeg dim (len - dim) key
      let left : List (List K) :=
        List.ofFn fun i : Fin dim => List.ofFn fun j : Fin dim =>
          if (i : Nat) = (j : Nat) then (1 : K) else 0
      pure ⟨mdeg, len, dim, delta, List.zipWith (fun a b => a ++ b) left right⟩
    | _ => throw Err.valueError
  | _ => throw Err.valueError

/-- Model of `SecretKey.export_pem`: DER bytes behind the private-key
marker. -/
def exportSecretPem (br : BitRep K m) {n k : Nat} (sk : SecretKey K n k) :
    String × List Bool :=
  ("PRIVATE KEY", exportSecretDer br sk)

/-- Model of `import_secret_pem`: check the marker, then DER import. -/
def importSecretPem (br : BitRep K m) (blob : String × List Bool) :
    Except Err (SecretKeyData K) :=
  if blob.1 = "PRIVATE KEY" then importSecretDer br blob.2
  else .error .valueError

/-- Model of `PublicKey.export_pem`. -/
def exportPublicPem (br : BitRep K m) {n k : Nat} (hkn : k ≤ n)
    (pk : PublicKey K n k) : String × List Bool :=
  ("PUBLIC KEY", exportPublicDer br hkn pk)

/-- Model of `import_public_pem`. -/
def importPublicPem (br : BitRep K m) (blob : String × List Bool) :
    Except Err (PublicKeyData K) :=
  if blob.1 = "PUBLIC KEY" then importPublicDer br blob.2
  else .error .valueError

theorem ok_bind {α β : Type} (a : α) (f : α → Except Err β) :
    ((Except.ok a : Except Err α) >>= f) = f a := rfl

theorem encode_elem_list_length_dvd (es : List (Nat × Nat)) :
    BYTE_SIZE ∣ (encode_elem_list es).length :=
  ⟨_, length_encode_elem_list es⟩

theorem derTLV_length_dvd (tag : Nat) (payload : List Bool)
    (h8 : BYTE_SIZE ∣ payload.length) : BYTE_SIZE ∣ (derTLV tag payload).length := by
  obtain ⟨q, hq0⟩ := h8
  have hq : payload.length = 8 * q := hq0
  unfold derTLV
  simp only [List.length_append, length_natToBitsBE]
  by_cases h : payload.length / 8 < 128
  · rw [derLen_length_short _ h]
    refine ⟨2 + q, ?_⟩
    show 8 + 8 + payload.length = 8 * (2 + q)
    omega
  · rw [derLen_length_long _ h]
    refine ⟨2 + byteLenNat (payload.length / 8) + q, ?_⟩
    show 8 + (8 + 8 * byteLenNat (payload.length / 8)) + payload.length =
      8 * (2 + byteLenNat (payload.length / 8) + q)
    omega

theorem payload_le_derTLV (tag : Nat) (payload : List Bool) :
    payload.length ≤ (derTLV tag payload).length := by
  unfold derTLV
  simp only [List.length_append]
  omega

theorem mem_flatten_le (items : List (List Bool)) (it : List Bool)
    (h : it ∈ items) : it.length ≤ items.flatten.length := by
  induction items with
  | nil => simp at h
  | cons a rest ih =>
    rcases List.mem_cons.mp h with h1 | h1
    · subst h1
      simp only [List.flatten_cons, List.length_append]
      omega
    · have := ih h1
      simp only [List.flatten_cons, List.length_append]
      omega

theorem dvd_flatten (items : List (List Bool))
    (h : ∀ it ∈ items, BYTE_SIZE ∣ it.length) : BYTE_SIZE ∣ items.flatten.length := by
  induction items with
  | nil => simp
  | cons a rest ih =>
    simp only [List.flatten_cons, List.length_append]
    exact Nat.dvd_add (h a (by simp)) (ih fun it hit => h it (by simp [hit]))

theorem flatten_le_derSequence (items : List (List Bool)) :
    items.flatten.length ≤ (derSequence items).length :=
  payload_le_derTLV 48 items.flatten

/-- Decoding an encoded matrix recovers its rows. -/
theorem decodeMatRows_encodeMat (br : BitRep K m) {r c : Nat}
    (M : Matrix (Fin r) (Fin c) K) (hm : 1 < m) (hc : 0 < c)
    (h8 : BYTE_SIZE ∣ m * (c * r)) :
    decodeMatRows br m r c (encodeMat br M) = .ok (matRows M) := by
  have hmap : (matList M).map (fun x => (m, br.val x)) =
      ((matList M).map br.val).map fun w => (m, w) := by
    rw [List.map_map]
    rfl
  have hlen : ((matList M).map br.val).length = c * r := by
    simp [matList_length]
  have hdec := decode_encode_elem_list m hm ((matList M).map br.val)
    (by
      intro w hw
      simp only [List.mem_map] at hw
      obtain ⟨x, _, hx⟩ := hw
      rw [← hx]
      exact br.val_lt x)
    (by rw [hlen]; exact h8)
  unfold decodeMatRows encodeMat
  rw [hmap, hdec]
  have helems : ((matList M).map br.val).map br.ofNat = matList M := by
    rw [List.map_map]
    have : br.ofNat ∘ br.val = id := by
      funext x
      exact br.ofNat_val x
    rw [this, List.map_id]
  simp only [helems]
  have hlen2 : (matList M).length = r * c := by
    rw [matList_length]
    ring
  simp only [hlen2, Nat.sub_self, List.drop_zero, if_true]
  congr 1
  show chunkExact c (matRows M).flatten = matRows M
  apply chunkExact_flatten c hc
  intro x hx
  unfold matRows at hx
  simp only [List.mem_ofFn] at hx
  obtain ⟨i, hi⟩ := hx
  rw [← hi]
  simp

/-- Decoding the encoded evaluation points recovers them. -/
theorem decode_points_roundtrip (br : BitRep K m) {n : Nat} (pts : Fin n → K)
    (hm : 1 < m) (h8 : BYTE_SIZE ∣ m * n) :
    decode_elem_list
        (encode_elem_list ((List.ofFn pts).map fun x => (m, br.val x))) m none =
      .ok ((List.ofFn pts).map br.val) := by
  have hmap : (List.ofFn pts).map (fun x => (m, br.val x)) =
      ((List.ofFn pts).map br.val).map fun w => (m, w) := by
    rw [List.map_map]
    rfl
  rw [hmap]
  apply decode_encode_elem_list m hm
  · intro w hw
    simp only [List.mem_map] at hw
    obtain ⟨x, _, hx⟩ := hw
    rw [← hx]
    exact br.val_lt x
  · simpa using h8

theorem derSmall_mono (l l' : List Bool) (h : l.length ≤ l'.length)
    (h' : DerSmall l') : DerSmall l := by
  unfold DerSmall at h' ⊢
  have := Nat.div_le_div_right (c := 8) h
  omega

/-- DER import of a DER-exported secret key recovers every component. -/
theorem importSecretDer_exportSecretDer (br : BitRep K m) {n k : Nat}
    (sk : SecretKey K n k) (hm : 1 < m) (hk : 0 < k) (hn : 0 < n)
    (h8n : BYTE_SIZE ∣ m * n) (h8s : BYTE_SIZE ∣ m * (k * k))
    (h8p : BYTE_SIZE ∣ m * (n * n))
    (hnm : m < 2 ^ 1000) (hnn : n < 2 ^ 1000) (hnk : k < 2 ^ 1000)
    (hnd : sk.delta < 2 ^ 1000)
    (hsize : DerSmall (exportSecretDer br sk)) :
    importSecretDer br (exportSecretDer br sk) = .ok (skData m sk) := by
  set e0 := encode_elem_list ((List.ofFn sk.points).map fun x => (m, br.val x))
    with he0
  set e1 := encodeMat br sk.s with he1
  set e2 := encodeMat br sk.p with he2
  set inner : List (List Bool) :=
    [derInteger m, derInteger n, derInteger k, derInteger sk.delta] with hinner
  set items : List (List Bool) :=
    [derOctetString e0, derOctetString e1, derOctetString e2, derSequence inner]
    with hitems
  have hexport : exportSecretDer br sk = derSequence items := rfl
  -- divisibility of the payload lengths
  have hdvd0 : BYTE_SIZE ∣ e0.length := encode_elem_list_length_dvd _
  have hdvd1 : BYTE_SIZE ∣ e1.length := encode_elem_list_length_dvd _
  have hdvd2 : BYTE_SIZE ∣ e2.length := encode_elem_list_length_dvd _
  have hdvdints : ∀ it ∈ inner, BYTE_SIZE ∣ it.length := by
    intro it hit
    rw [hinner] at hit
    simp only [List.mem_cons, List.not_mem_nil, or_false] at hit
    rcases hit with h | h | h | h <;>
      · rw [h]
        exact derTLV_length_dvd 2 _ (length_derIntPayload_dvd _)
  have hdvdinner : BYTE_SIZE ∣ inner.flatten.length := dvd_flatten _ hdvdints
  have hdvditems : ∀ it ∈ items, BYTE_SIZE ∣ it.length := by
    intro it hit
    rw [hitems] at hit
    simp only [List.mem_cons, List.not_mem_nil, or_false] at hit
    rcases hit with h | h | h | h
    · rw [h]
      exact derTLV_length_dvd 4 _ hdvd0
    · rw [h]
      exact derTLV_length_dvd 4 _ hdvd1
    · rw [h]
      exact derTLV_length_dvd 4 _ hdvd2
    · rw [h]
      exact derTLV_length_dvd 48 _ hdvdinner
  -- smallness propagated down from the export
  have hsmall_item : ∀ it ∈ items, DerSmall it := by
    intro it hit
    apply derSmall_mono _ _ _ hsize
    rw [hexport]
    calc it.length ≤ items.flatten.length := mem_flatten_le items it hit
    _ ≤ (derSequence items).length := flatten_le_derSequence items
  have hsmall_flat : DerSmall items.flatten :=
    derSmall_mono _ _ (by rw [hexport]; exact flatten_le_derSequence items) hsize
  have hm0 : derOctetString e0 ∈ items := by
    rw [hitems]
    exact List.mem_cons_self _ _
  have hm1 : derOctetString e1 ∈ items := by
    rw [hitems]
    exact List.mem_cons_of_mem _ (List.mem_cons_self _ _)
  have hm2 : derOctetString e2 ∈ items := by
    rw [hitems]
    exact List.mem_cons_of_mem _ (List.mem_cons_of_mem _ (List.mem_cons_self _ _))
  have hm3 : derSequence inner ∈ items := by
    rw [hitems]
    exact List.mem_cons_of_mem _ (List.mem_cons_of_mem _
      (List.mem_cons_of_mem _ (List.mem_cons_self _ _)))
  have hsmall0 : DerSmall e0 :=
    derSmall_mono _ _
      (le_trans (payload_le_derTLV 4 e0) (mem_flatten_le items _ hm0)) hsmall_flat
  have hsmall1 : DerSmall e1 :=
    derSmall_mono _ _
      (le_trans (payload_le_derTLV 4 e1) (mem_flatten_le items _ hm1)) hsmall_flat
  have hsmall2 : DerSmall e2 :=
    derSmall_mono _ _
      (le_trans (payload_le_derTLV 4 e2) (mem_flatten_le items _ hm2)) hsmall_flat
  have hsmall_inner : DerSmall inner.flatten := by
    apply derSmall_mono _ _ _ hsmall_flat
    calc inner.flatten.length ≤ (derSequence inner).length :=
      flatten_le_derSequence inner
    _ ≤ items.flatten.length := mem_flatten_le items _ hm3
  -- well-formedness of each item
  have hwfitems : ∀ it ∈ items, ∃ tag payload,
      WfTLV tag payload ∧ it = derTLV tag payload := by
    intro it hit
    have hsm := hsmall_item it hit
    rw [hitems] at hit
    simp only [List.mem_cons, List.not_mem_nil, or_false] at hit
    rcases hit with h | h | h | h
    · exact ⟨4, e0, ⟨by omega, hdvd0, byteLenNat_lt_128 _ (derSmall_lt e0 hsmall0)⟩, h⟩
    · exact ⟨4, e1, ⟨by omega, hdvd1, byteLenNat_lt_128 _ (derSmall_lt e1 hsmall1)⟩, h⟩
    · exact ⟨4, e2, ⟨by omega, hdvd2, byteLenNat_lt_128 _ (derSmall_lt e2 hsmall2)⟩, h⟩
    · exact ⟨48, inner.flatten,
        ⟨by omega, hdvdinner,
          byteLenNat_lt_128 _ (derSmall_lt _ hsmall_inner)⟩, h⟩
  have hwfinner : ∀ it ∈ inner, ∃ tag payload,
      WfTLV tag payload ∧ it = derTLV tag payload := by
    intro it hit
    have hsm : DerSmall it := by
      apply derSmall_mono _ _ (mem_flatten_le inner it hit) hsmall_inner
    rw [hinner] at hit
    simp only [List.mem_cons, List.not_mem_nil, or_false] at hit
    have hip : ∀ v : Nat, DerSmall (derIntPayload v) → WfTLV 2 (derIntPayload v) := by
      intro v hv
      exact ⟨by omega, length_derIntPayload_dvd v,
        byteLenNat_lt_128 _ (derSmall_lt _ hv)⟩
    rcases hit with h | h | h | h <;>
      · refine ⟨2, _, hip _ (derSmall_mono _ _ (by rw [h]; exact payload_le_derTLV 2 _) hsm), h⟩
  -- parse the two sequences and the leaves
  have hseq : parseDerSequence (derSequence items) = .ok items :=
    parseDerSequence_derSequence items hwfitems (dvd_flatten _ hdvditems) hsmall_flat
  have hseqin : parseDerSequence (derSequence inner) = .ok inner :=
    parseDerSequence_derSequence inner hwfinner hdvdinner hsmall_inner
  have hoct0 : parseDerOctetString (derOctetString e0) = .ok e0 :=
    parseDerOctetString_enc e0 hdvd0 hsmall0
  have hoct1 : parseDerOctetString (derOctetString e1) = .ok e1 :=
    parseDerOctetString_enc e1 hdvd1 hsmall1
  have hoct2 : parseDerOctetString (derOctetString e2) = .ok e2 :=
    parseDerOctetString_enc e2 hdvd2 hsmall2
  have hintm : parseDerInt (derInteger m) = .ok m := parseDerInt_enc m hnm
  have hintn : parseDerInt (derInteger n) = .ok n := parseDerInt_enc n hnn
  have hintk : parseDerInt (derInteger k) = .ok k := parseDerInt_enc k hnk
  have hintd : parseDerInt (derInteger sk.delta) = .ok sk.delta :=
    parseDerInt_enc sk.delta hnd
  have hpts := decode_points_roundtrip br sk.points hm h8n
  have hsmat := decodeMatRows_encodeMat br sk.s hm hk (by
    have : m * (k * k) = m * (k * k) := rfl
    exact h8s)
  have hpmat := decodeMatRows_encodeMat br sk.p hm hn h8p
  rw [hexport]
  unfold importSecretDer
  rw [hitems] at hseq
  simp only [hseq, ok_bind, hoct0, hoct1, hoct2, hseqin, hinner, hintm, hintn,
    hintk, hintd, he0, hpts, he1, hsmat, he2, hpmat]
  unfold skData
  have hep : ((List.ofFn sk.points).map br.val).map br.ofNat = List.ofFn sk.points := by
    rw [List.map_map]
    have : br.ofNat ∘ br.val = id := by
      funext x
      exact br.ofNat_val x
    rw [this, List.map_id]
  rw [hep]
  rfl

theorem zipWith_ofFn {A B C : Type} {n : Nat} (f : A → B → C)
    (a : Fin n → A) (b : Fin n → B) :
    List.zipWith f (List.ofFn a) (List.ofFn b) = List.ofFn fun i => f (a i) (b i) := by
  apply List.ext_get
  · simp [List.length_zipWith]
  · intro i h1 h2
    simp [List.get_eq_getElem, List.getElem_zipWith, List.getElem_ofFn]

/-- Entries of the first columns of a systematic matrix. -/
theorem systematic_entry {n k : Nat} (hkn : k ≤ n) (g : Matrix (Fin k) (Fin n) K)
    (hsys : firstCols hkn g = 1) (i j : Fin k) :
    g i (Fin.castLE hkn j) = if (i : Nat) = (j : Nat) then (1 : K) else 0 := by
  have h := congrFun (congrFun hsys i) j
  rw [show firstCols hkn g i j = g i (Fin.castLE hkn j) from rfl] at h
  rw [Matrix.one_apply] at h
  rw [h]
  by_cases hij : i = j
  · rw [if_pos hij, if_pos (by rw [hij])]
  · rw [if_neg hij, if_neg fun hc => hij (Fin.ext hc)]

/-- One row of a systematic matrix is its identity-row prefix followed by its
right-block row. -/
theorem systematic_row {n k : Nat} (hkn : k ≤ n) (g : Matrix (Fin k) (Fin n) K)
    (hsys : firstCols hkn g = 1) (i : Fin k) :
    (List.ofFn fun j : Fin k => if (i : Nat) = (j : Nat) then (1 : K) else 0) ++
      (List.ofFn fun j : Fin (n - k) => rightBlock hkn g i j) =
      List.ofFn fun j : Fin n => g i j := by
  apply List.ext_get
  · simp
    omega
  · intro j h1 h2
    have hjn : j < n := by simpa using h2
    simp only [List.get_eq_getElem]
    by_cases hjk : j < k
    · rw [List.getElem_append_left (by simpa using hjk)]
      simp only [List.getElem_ofFn]
      have := systematic_entry hkn g hsys i ⟨j, hjk⟩
      rw [show Fin.castLE hkn (⟨j, hjk⟩ : Fin k) = (⟨j, hjn⟩ : Fin n) from rfl] at this
      rw [← this]
    · rw [List.getElem_append_right (by simpa using hjk)]
      simp only [List.getElem_ofFn]
      show g i _ = g i _
      congr 1
      apply Fin.ext
      simp
      omega

/-- Augmenting the identity block with the right block recovers the rows of a
systematic generator matrix. -/
theorem augment_rows {n k : Nat} (hkn : k ≤ n) (g : Matrix (Fin k) (Fin n) K)
    (hsys : firstCols hkn g = 1) :
    List.zipWith (fun a b => a ++ b)
      (List.ofFn fun i : Fin k => List.ofFn fun j : Fin k =>
        if (i : Nat) = (j : Nat) then (1 : K) else 0)
      (matRows (rightBlock hkn g)) = matRows g := by
  unfold matRows
  rw [zipWith_ofFn]
  congr 1
  funext i
  exact systematic_row hkn g hsys i

/-- Inversion of `PublicKey.export_der` by `import_public_der` when the
stored generator matrix is systematic. -/
theorem importPublicDer_exportPublicDer (br : BitRep K m) {n k : Nat}
    (pk : PublicKey K n k) (hkn : k ≤ n) (hm : 1 < m) (hk : k < n)
    (h8r : BYTE_SIZE ∣ m * ((n - k) * k))
    (hnm : m < 2 ^ 1000) (hnn : n < 2 ^ 1000) (hnk : k < 2 ^ 1000)
    (hnd : pk.delta < 2 ^ 1000)
    (hsys : firstCols hkn pk.g = 1)
    (hsize : DerSmall (exportPublicDer br hkn pk)) :
    importPublicDer br (exportPublicDer br hkn pk) = .ok (pkData m pk) := by
  set e0 := encodeMat br (rightBlock hkn pk.g) with he0
  set inner : List (List Bool) :=
    [derInteger m, derInteger n, derInteger k, derInteger pk.delta] with hinner
  set items : List (List Bool) := [derBitString e0, derSequence inner] with hitems
  have hexport : exportPublicDer br hkn pk = derSequence items := rfl
  have hdvd0 : BYTE_SIZE ∣ e0.length := encode_elem_list_length_dvd _
  have hdvd0' : BYTE_SIZE ∣ (natToBitsBE 8 0 ++ e0).length := by
    obtain ⟨q, hq⟩ := hdvd0
    refine ⟨q + 1, ?_⟩
    simp only [List.length_append, length_natToBitsBE, hq]
    show 8 + 8 * q = 8 * (q + 1)
    ring
  have hdvdints : ∀ it ∈ inner, BYTE_SIZE ∣ it.length := by
    intro it hit
    rw [hinner] at hit
    simp only [List.mem_cons, List.not_mem_nil, or_false] at hit
    rcases hit with h | h | h | h <;>
      · rw [h]
        exact derTLV_length_dvd 2 _ (length_derIntPayload_dvd _)
  have hdvdinner : BYTE_SIZE ∣ inner.flatten.length := dvd_flatten _ hdvdints
  have hdvditems : ∀ it ∈ items, BYTE_SIZE ∣ it.length := by
    intro it hit
    rw [hitems] at hit
    simp only [List.mem_cons, List.not_mem_nil, or_false] at hit
    rcases hit with h | h
    · rw [h]
      exact derTLV_length_dvd 3 _ hdvd0'
    · rw [h]
      exact derTLV_length_dvd 48 _ hdvdinner
  have hsmall_item : ∀ it ∈ items, DerSmall it := by
    intro it hit
    apply derSmall_mono _ _ _ hsize
    rw [hexport]
    calc it.length ≤ items.flatten.length := mem_flatten_le items it hit
    _ ≤ (derSequence items).length := flatten_le_derSequence items
  have hsmall_flat : DerSmall items.flatten :=
    derSmall_mono _ _ (by rw [hexport]; exact flatten_le_derSequence items) hsize
  have hm0 : derBitString e0 ∈ items := by
    rw [hitems]
    exact List.mem_cons_self _ _
  have hm1 : derSequence inner ∈ items := by
    rw [hitems]
    exact List.mem_cons_of_mem _ (List.mem_cons_self _ _)
  have hsmall0 : DerSmall (natToBitsBE 8 0 ++ e0) :=
    derSmall_mono _ _
      (le_trans (payload_le_derTLV 3 _) (mem_flatten_le items _ hm0)) hsmall_flat
  have hsmall0' : DerSmall e0 :=
    derSmall_mono _ _ (by simp) hsmall0
  have hsmall_inner : DerSmall inner.flatten := by
    apply derSmall_mono _ _ _ hsmall_flat
    calc inner.flatten.length ≤ (derSequence inner).length :=
      flatten_le_derSequence inner
    _ ≤ items.flatten.length := mem_flatten_le items _ hm1
  have hwfitems : ∀ it ∈ items, ∃ tag payload,
      WfTLV tag payload ∧ it = derTLV tag payload := by
    intro it hit
    rw [hitems] at hit
    simp only [List.mem_cons, List.not_mem_nil, or_false] at hit
    rcases hit with h | h
    · exact ⟨3, natToBitsBE 8 0 ++ e0,
        ⟨by omega, hdvd0', byteLenNat_lt_128 _ (derSmall_lt _ hsmall0)⟩, h⟩
    · exact ⟨48, inner.flatten,
        ⟨by omega, hdvdinner,
          byteLenNat_lt_128 _ (derSmall_lt _ hsmall_inner)⟩, h⟩
  have hwfinner : ∀ it ∈ inner, ∃ tag payload,
      WfTLV tag payload ∧ it = derTLV tag payload := by
    intro it hit
    have hsm : DerSmall it := by
      apply derSmall_mono _ _ (mem_flatten_le inner it hit) hsmall_inner
    rw [hinner] at hit
    simp only [List.mem_cons, List.not_mem_nil, or_false] at hit
    have hip : ∀ v : Nat, DerSmall (derIntPayload v) → WfTLV 2 (derIntPayload v) := by
      intro v hv
      exact ⟨by omega, length_derIntPayload_dvd v,
        byteLenNat_lt_128 _ (derSmall_lt _ hv)⟩
    rcases hit with h | h | h | h <;>
      · refine ⟨2, _, hip _ (derSmall_mono _ _ (by rw [h]; exact payload_le_derTLV 2 _) hsm), h⟩
  have hseq : parseDerSequence (derSequence items) = .ok items :=
    parseDerSequence_derSequence items hwfitems (dvd_flatten _ hdvditems) hsmall_flat
  have hseqin : parseDerSequence (derSequence inner) = .ok inner :=
    parseDerSequence_derSequence inner hwfinner hdvdinner hsmall_inner
  have hbit : parseDerBitString (derBitString e0) = .ok (natToBitsBE 8 0 ++ e0) :=
    parseDerBitString_enc e0 hdvd0 hsmall0'
  have hdrop : (natToBitsBE 8 0 ++ e0).drop 8 = e0 :=
    drop_app _ _ 8 (length_natToBitsBE 8 0)
  have hintm : parseDerInt (derInteger m) = .ok m := parseDerInt_enc m hnm
  have hintn : parseDerInt (derInteger n) = .ok n := parseDerInt_enc n hnn
  have hintk : parseDerInt (derInteger k) = .ok k := parseDerInt_enc k hnk
  have hintd : parseDerInt (derInteger pk.delta) = .ok pk.delta :=
    parseDerInt_enc pk.delta hnd
  have hrmat : decodeMatRows br m k (n - k) e0 = .ok (matRows (rightBlock hkn pk.g)) :=
    decodeMatRows_encodeMat br (rightBlock hkn pk.g) hm (by omega) h8r
  rw [hexport]
  unfold importPublicDer
  rw [hitems] at hseq
  simp only [hseq, ok_bind, hbit, hdrop, hseqin, hinner, hintm, hintn,
    hintk, hintd, he0, hrmat, ok_bind]
  unfold pkData
  rw [augment_rows hkn pk.g hsys]
  rfl

/-! ## The cipher (`cipher.py`)

`Enc.__call__` and `Dec.__call__`, with the objects the source samples or
obtains from Sage passed explicitly: the error vector `e` sampled by
`random_rank_vector`, the hash `H` and XOF `X` algorithm objects, and the
Gabidulin decoder `dec` (Sage's `decode_to_code`).  Byte strings are bit
lists; a byte count in the source is a bit count divided by `BYTE_SIZE`
here. -/

/-- Model of `Cipher.plaintext_len`: `m·k // 8` minus the hash digest size. -/
def plaintextLen (m k dH : Nat) : Nat := m * k / BYTE_SIZE - dH

/-- Model of `Cipher.ciphertext_len`. -/
def ciphertextLen (m n : Nat) : Nat := m * n / BYTE_SIZE

/-- Model of `Cipher._decoding_capacity`. -/
def decodingCapacity (n k delta : Nat) : Nat := (n - k) / (2 * delta)

/-- All subset XORs of a list of bit representations: the `F₂`-span of the
values. -/
def xorSpan (l : List Nat) : List Nat :=
  l.foldr (fun x acc => acc ++ acc.map fun y => Nat.xor x y) [0]

/-- Base-2 logarithm with explicit fuel (the value itself bounds the number of
halvings). -/
def log2Go : Nat → Nat → Nat
  | 0, _ => 0
  | fuel + 1, v => if 2 ≤ v then log2Go fuel (v / 2) + 1 else 0

/-- Model of Sage's `rank_weight` on a vector over `F_{2^m}`: the dimension of
the `F₂`-span of its coordinates, read off as the base-2 logarithm of the
number of distinct subset XORs of their bit representations. -/
def rankVec (br : BitRep K m) {n : Nat} (v : Fin n → K) : Nat :=
  log2Go (xorSpan ((List.ofFn v).map br.val)).dedup.length
    (xorSpan ((List.ofFn v).map br.val)).dedup.length

/-- Model of `Enc.__call__` on public generator `g`, hash `H`, XOF `X` and the
error vector `e` sampled inside the call. -/
def encCall (br : BitRep K m) {n k : Nat} (g : Matrix (Fin k) (Fin n) K)
    (H : List Bool → List Bool) (X : List Bool → Nat → List Bool)
    (e : Fin n → K) (pt : List Bool) : Except Err (List Bool) :=
  let error := encodeVec br e
  let verifierHash := H (error ++ pt)
  let ext := pt ++ verifierHash
  let errorHash := X error (ext.length / BYTE_SIZE)
  match strxor ext errorHash with
  | .error err => .error err
  | .ok masked =>
    match decodeVec br k masked with
    | .error err => .error err
    | .ok msg =>
      let codeword := encodeVec br (Matrix.vecMul msg g)
      strxor codeword error

/-- Model of `Dec.__call__` on a secret key, the Gabidulin decoder `dec`, hash
`H` of digest size `dH` and XOF `X`. -/
def decCall (br : BitRep K m) {n k : Nat} (hkn : k ≤ n) (sk : SecretKey K n k)
    (dec : (Fin n → K) → Except Err (Fin n → K))
    (H : List Bool → List Bool) (X : List Bool → Nat → List Bool)
    (dH : Nat) (ct : List Bool) : Except Err (List Bool) :=
  match decodeVec br n ct with
  | .error err => .error err
  | .ok received =>
    match dec (Matrix.vecMul received sk.p) with
    | .error err => .error err
    | .ok codeword =>
      let errorVector := received + Matrix.vecMul codeword (minv sk.p)
      let error := encodeVec br errorVector
      let message := encodeVec br
        (Matrix.vecMul (unencode hkn (gabGen k sk.points) codeword) sk.s)
      match strxor message (X error (message.length / BYTE_SIZE)) with
      | .error err => .error err
      | .ok ext =>
        let index := BYTE_SIZE * plaintextLen m k dH
        let pt := ext.take index
        let verifierHash := ext.drop index
        let hashVerified : Bool := verifierHash = H (error ++ pt)
        let rankVerified : Bool :=
          rankVec br errorVector = decodingCapacity n k sk.delta
        if !hashVerified && !rankVerified then .error .decodingError
        else .ok pt

/-! ## Random samplers (`matrix.py`)

`random_invertible_subpace_matrix` first guards on the field degree, then
loops lifting a random subfield matrix through random linear maps until the
lift has full rank.  The loop is modelled on the explicit stream of sampled
candidate lifts; an exhausted stream stands for the non-terminating run. -/

/-- Model of `random_invertible_subpace_matrix`: raise when the field degree
is below the subspace dimension, otherwise return the first sampled candidate
of full rank (nonzero determinant). -/
def randomInvertibleSubspaceMatrix (deg sdim order : Nat)
    (cands : List (Matrix (Fin order) (Fin order) K)) :
    Except Err (Matrix (Fin order) (Fin order) K) :=
  if deg < sdim then .error .valueError
  else
    match cands.find? (fun M => decide (M.det ≠ 0)) with
    | some M => .ok M
    | none => .error .randomnessExhausted

/-! ## Rank-distance decoding contract

The `F₂`-span of a family of field elements, used to bound the rank of the
error vectors handled by Sage's Gabidulin `decode_to_code`. -/

/-- The coordinates of `v` lie in the span, over `F₂`, of at most `r` field
elements. -/
def SpanLe {n : Nat} (v : Fin n → K) (r : Nat) : Prop :=
  ∃ (b : Fin r → K) (c : Fin n → Fin r → Bool),
    ∀ i, v i = ∑ j, if c i j then b j else 0

/-- The entries of a square matrix lie in the span, over `F₂`, of at most
`sdim` field elements (the defining property of the subspace column
scrambler). -/
def SubspaceMat {n : Nat} (sdim : Nat) (P : Matrix (Fin n) (Fin n) K) : Prop :=
  ∃ (b : Fin sdim → K) (c : Fin n → Fin n → Fin sdim → Bool),
    ∀ i j, P i j = ∑ u, if c i j u then b u else 0

/-- Contract of Sage's `decode_to_code` on the Gabidulin code with the given
evaluation points: a word at rank distance at most `⌊(n-k)/2⌋` from a codeword
decodes to that codeword. -/
def GabDecodes (k : Nat) {n : Nat} (pts : Fin n → K)
    (dec : (Fin n → K) → Except Err (Fin n → K)) : Prop :=
  ∀ (msg : Fin k → K) (e : Fin n → K), SpanLe e ((n - k) / 2) →
    dec (Matrix.vecMul msg (gabGen k pts) + e) =
      .ok (Matrix.vecMul msg (gabGen k pts))

theorem spanLe_succ {n : Nat} {v : Fin n → K} {r : Nat} (h : SpanLe v r) :
    SpanLe v (r + 1) := by
  obtain ⟨b, c, hv⟩ := h
  refine ⟨Fin.snoc b 0, fun i => Fin.snoc (c i) false, ?_⟩
  intro i
  rw [Fin.sum_univ_castSucc]
  simp only [Fin.snoc_castSucc, Fin.snoc_last]
  rw [ite_self, add_zero]
  exact hv i

theorem spanLe_mono {n : Nat} {v : Fin n → K} {r r' : Nat} (h : SpanLe v r)
    (hrr : r ≤ r') : SpanLe v r' := by
  induction r' with
  | zero =>
    have : r = 0 := by omega
    subst this
    exact h
  | succ t ih =>
    rcases Nat.lt_or_ge r (t + 1) with hlt | hge
    · exact spanLe_succ (ih (by omega))
    · have : r = t + 1 := by omega
      subst this
      exact h

theorem char2_nsmul (br : BitRep K m) (s : Nat) (x : K) :
    s • x = if s % 2 = 1 then x else 0 := by
  induction s with
  | zero => simp
  | succ t ih =>
    rw [succ_nsmul, ih]
    rcases Nat.mod_two_eq_zero_or_one t with h | h
    · rw [if_neg (by omega), if_pos (by omega), zero_add]
    · rw [if_pos (by omega), if_neg (by omega)]
      exact br.add_self x

theorem char2_sum_ite (br : BitRep K m) {ι : Type} [Fintype ι] [DecidableEq ι]
    (f : ι → Bool) (x : K) :
    (∑ i, if f i then x else 0) =
      if (Finset.univ.filter fun i => f i = true).card % 2 = 1 then x else 0 := by
  rw [← Finset.sum_filter, Finset.sum_const, char2_nsmul br]

/-- Rank bound of `e · P` for an error `e` spanning at most `t` dimensions and
a matrix `P` with entries in a `sdim`-dimensional subspace: the products of the
two spanning families span the result. -/
theorem spanLe_vecMul (br : BitRep K m) {n t sdim : Nat} {e : Fin n → K}
    {P : Matrix (Fin n) (Fin n) K}
    (he : SpanLe e t) (hP : SubspaceMat sdim P) :
    SpanLe (Matrix.vecMul e P) (t * sdim) := by
  obtain ⟨b, c, hb⟩ := he
  obtain ⟨pb, d, hpb⟩ := hP
  refine ⟨fun q => b (finProdFinEquiv.symm q).1 * pb (finProdFinEquiv.symm q).2,
    fun j q => decide ((Finset.univ.filter fun i : Fin n =>
      (c i (finProdFinEquiv.symm q).1 && d i j (finProdFinEquiv.symm q).2) = true).card
        % 2 = 1),
    ?_⟩
  intro j
  have hls : Matrix.vecMul e P j = ∑ i, e i * P i j := by
    simp [Matrix.vecMul, Matrix.dotProduct]
  have hterm : ∀ i : Fin n, e i * P i j =
      ∑ a : Fin t, ∑ u : Fin sdim,
        if (c i a && d i j u) = true then b a * pb u else 0 := by
    intro i
    rw [hb i, hpb i j, Finset.sum_mul]
    refine Finset.sum_congr rfl fun a _ => ?_
    rw [Finset.mul_sum]
    refine Finset.sum_congr rfl fun u _ => ?_
    rcases hc : c i a <;> rcases hd : d i j u <;> simp [hc, hd]
  calc Matrix.vecMul e P j
      = ∑ i, ∑ a : Fin t, ∑ u : Fin sdim,
          if (c i a && d i j u) = true then b a * pb u else 0 := by
        rw [hls]
        exact Finset.sum_congr rfl fun i _ => hterm i
    _ = ∑ a : Fin t, ∑ i, ∑ u : Fin sdim,
          if (c i a && d i j u) = true then b a * pb u else 0 :=
        Finset.sum_comm
    _ = ∑ a : Fin t, ∑ u : Fin sdim, ∑ i,
          if (c i a && d i j u) = true then b a * pb u else 0 :=
        Finset.sum_congr rfl fun a _ => Finset.sum_comm
    _ = ∑ a : Fin t, ∑ u : Fin sdim,
          if (Finset.univ.filter fun i : Fin n =>
              (c i a && d i j u) = true).card % 2 = 1
          then b a * pb u else 0 := by
        refine Finset.sum_congr rfl fun a _ => Finset.sum_congr rfl fun u _ => ?_
        exact char2_sum_ite br (fun i => c i a && d i j u) (b a * pb u)
    _ = ∑ p : Fin t × Fin sdim,
          if (Finset.univ.filter fun i : Fin n =>
              (c i p.1 && d i j p.2) = true).card % 2 = 1
          then b p.1 * pb p.2 else 0 := by
        rw [Fintype.sum_prod_type]
    _ = ∑ q : Fin (t * sdim),
          if decide ((Finset.univ.filter fun i : Fin n =>
              (c i (finProdFinEquiv.symm q).1 &&
                d i j (finProdFinEquiv.symm q).2) = true).card % 2 = 1) = true
          then b (finProdFinEquiv.symm q).1 * pb (finProdFinEquiv.symm q).2
          else 0 := by
        refine Fintype.sum_equiv finProdFinEquiv _ _ fun p => ?_
        simp [decide_eq_true_eq]

theorem zipxor_zipxor (a b : List Bool) (h : a.length = b.length) :
    List.zipWith Bool.xor (List.zipWith Bool.xor a b) b = a := by
  induction a generalizing b with
  | nil =>
    cases b with
    | nil => rfl
    | cons y ys => simp at h
  | cons x xs ih =>
    cases b with
    | nil => simp at h
    | cons y ys =>
      simp only [List.zipWith]
      rw [ih ys (by simpa using h)]
      congr 1
      cases x <;> cases y <;> rfl

theorem capacity_mul_le (n k delta : Nat) :
    decodingCapacity n k delta * delta ≤ (n - k) / 2 := by
  unfold decodingCapacity
  rw [show (n - k) / (2 * delta) = (n - k) / 2 / delta from
    (Nat.div_div_eq_div_mul _ _ _).symm]
  exact Nat.div_mul_le_self _ _

theorem vec_add_add_self (br : BitRep K m) {n : Nat} (x y : Fin n → K) :
    (x + y) + x = y := by
  funext i
  simp only [Pi.add_apply]
  rw [add_comm (x i) (y i), add_assoc, br.add_self, add_zero]

/-- One-step characterization of `decCall` once the received word decodes, the
Gabidulin decoder answers, and the mask has the right length: the result is
the recovered plaintext unless both the hash check and the rank check fail. -/
theorem decCall_step (br : BitRep K m) {n k : Nat} (hkn : k ≤ n)
    (sk : SecretKey K n k)
    (dec : (Fin n → K) → Except Err (Fin n → K))
    (H : List Bool → List Bool) (X : List Bool → Nat → List Bool)
    (dH : Nat) (ct : List Bool) (received codeword : Fin n → K)
    (ext2 : List Bool)
    (hrec : decodeVec br n ct = .ok received)
    (hdc : dec (Matrix.vecMul received sk.p) = .ok codeword)
    (hstr : strxor
        (encodeVec br
          (Matrix.vecMul (unencode hkn (gabGen k sk.points) codeword) sk.s))
        (X (encodeVec br (received + Matrix.vecMul codeword (minv sk.p)))
          ((encodeVec br
            (Matrix.vecMul (unencode hkn (gabGen k sk.points) codeword)
              sk.s)).length / BYTE_SIZE)) = .ok ext2) :
    decCall br hkn sk dec H X dH ct =
      if !decide (ext2.drop (BYTE_SIZE * plaintextLen m k dH) =
            H (encodeVec br (received + Matrix.vecMul codeword (minv sk.p)) ++
              ext2.take (BYTE_SIZE * plaintextLen m k dH))) &&
          !decide (rankVec br (received + Matrix.vecMul codeword (minv sk.p)) =
            decodingCapacity n k sk.delta)
      then .error .decodingError
      else .ok (ext2.take (BYTE_SIZE * plaintextLen m k dH)) := by
  unfold decCall
  rw [hrec]
  show (match dec (Matrix.vecMul received sk.p) with
    | Except.error err => Except.error err
    | Except.ok codeword => _) = _
  rw [hdc]
  show (match strxor
      (encodeVec br
        (Matrix.vecMul (unencode hkn (gabGen k sk.points) codeword) sk.s))
      (X (encodeVec br (received + Matrix.vecMul codeword (minv sk.p)))
        ((encodeVec br
          (Matrix.vecMul (unencode hkn (gabGen k sk.points) codeword)
            sk.s)).length / BYTE_SIZE)) with
    | Except.error err => Except.error err
    | Except.ok ext3 => _) = _
  rw [hstr]

/-- Claim C1: decryption of an honest encryption returns the plaintext
(perfect correctness), for any secret key with invertible scramblers and an
invertible information set, a Gabidulin decoder meeting its rank-distance
contract, hash and XOF oracles of the declared lengths, a plaintext of the
nominal length, an error sampled with rank at most the decoding capacity, and
a subspace column scrambler. -/
theorem decCall_encCall (br : BitRep K m) {n k : Nat} (hkn : k ≤ n)
    (sk : SecretKey K n k)
    (dec : (Fin n → K) → Except Err (Fin n → K))
    (H : List Bool → List Bool) (X : List Bool → Nat → List Bool)
    (dH : Nat) (pt : List Bool) (e : Fin n → K)
    (hm : 1 < m) (h8k : BYTE_SIZE ∣ m * k) (h8n : BYTE_SIZE ∣ m * n)
    (hs : IsUnit sk.s.det) (hp : IsUnit sk.p.det)
    (hG1 : IsUnit (firstCols hkn (gabGen k sk.points)).det)
    (hdec : GabDecodes k sk.points dec)
    (hH : ∀ x, (H x).length = BYTE_SIZE * dH)
    (hX : ∀ s l, (X s l).length = BYTE_SIZE * l)
    (hdH : dH ≤ m * k / BYTE_SIZE)
    (hpt : pt.length = BYTE_SIZE * plaintextLen m k dH)
    (he : SpanLe e (decodingCapacity n k sk.delta))
    (hP : SubspaceMat sk.delta sk.p) :
    (encCall br sk.publicKey.g H X e pt).bind
      (decCall br hkn sk dec H X dH) = .ok pt := by
  set G := gabGen k sk.points with hGdef
  set Gpub := sk.publicKey.g with hGpubdef
  have hGpub : Gpub = minv sk.s * G * minv sk.p := rfl
  -- byte strings of the encryption
  set error : List Bool := encodeVec br e with herrdef
  have herrlen : error.length = m * n := length_encodeVec_of_dvd br e h8n
  set ext : List Bool := pt ++ H (error ++ pt) with hextdef
  have hmk8 : BYTE_SIZE * (m * k / BYTE_SIZE) = m * k := Nat.mul_div_cancel' h8k
  have hextlen : ext.length = m * k := by
    rw [hextdef, List.length_append, hpt, hH]
    have h1 : (8 : Nat) * (m * k / 8) = m * k := hmk8
    have h2 : dH ≤ m * k / 8 := hdH
    show 8 * (m * k / 8 - dH) + 8 * dH = m * k
    omega
  set errorHash : List Bool := X error (ext.length / BYTE_SIZE) with hehdef
  have hehlen : errorHash.length = m * k := by
    rw [hehdef, hX, hextlen]
    exact hmk8
  have hmask : strxor ext errorHash = .ok (List.zipWith Bool.xor ext errorHash) :=
    strxor_ok _ _ (by rw [hextlen, hehlen])
  set masked : List Bool := List.zipWith Bool.xor ext errorHash with hmaskdef
  have hmaskedlen : masked.length = m * k := by
    rw [hmaskdef, List.length_zipWith, hextlen, hehlen]
    exact Nat.min_self _
  obtain ⟨μ, hdecμ, hencμ⟩ :=
    encodeVec_decodeVec br k masked hm hmaskedlen (by rw [hmaskedlen]; exact h8k)
  set cw : List Bool := encodeVec br (Matrix.vecMul μ Gpub) with hcwdef
  have hcwlen : cw.length = m * n := length_encodeVec_of_dvd br _ h8n
  have hctstr : strxor cw error = .ok (List.zipWith Bool.xor cw error) :=
    strxor_ok _ _ (by rw [hcwlen, herrlen])
  have hct : List.zipWith Bool.xor cw error =
      encodeVec br (Matrix.vecMul μ Gpub + e) :=
    (encodeVec_add br _ e h8n).symm
  have hencstep : encCall br Gpub H X e pt =
      (match strxor ext errorHash with
       | .error err => .error err
       | .ok masked2 =>
         match decodeVec br k masked2 with
         | .error err => .error err
         | .ok msg => strxor (encodeVec br (Matrix.vecMul msg Gpub)) error) := rfl
  have henc : encCall br Gpub H X e pt =
      .ok (encodeVec br (Matrix.vecMul μ Gpub + e)) := by
    rw [hencstep, hmask]
    show (match decodeVec br k masked with
      | Except.error err => Except.error err
      | Except.ok msg => strxor (encodeVec br (Matrix.vecMul msg Gpub)) error) = _
    rw [hdecμ]
    show strxor cw error = _
    rw [hctstr, hct]
  -- the decryption side
  have hrec : decodeVec br n (encodeVec br (Matrix.vecMul μ Gpub + e)) =
      .ok (Matrix.vecMul μ Gpub + e) :=
    decodeVec_encodeVec br _ hm h8n
  set ν := Matrix.vecMul μ (minv sk.s) with hνdef
  have hGpubP : Gpub * sk.p = minv sk.s * G := by
    rw [hGpub, Matrix.mul_assoc, minv_mul _ hp, Matrix.mul_one]
  have hrecP : Matrix.vecMul (Matrix.vecMul μ Gpub + e) sk.p =
      Matrix.vecMul ν G + Matrix.vecMul e sk.p := by
    rw [Matrix.add_vecMul, Matrix.vecMul_vecMul, hGpubP, hνdef,
      ← Matrix.vecMul_vecMul]
  have hspan : SpanLe (Matrix.vecMul e sk.p) ((n - k) / 2) :=
    spanLe_mono (spanLe_vecMul br he hP) (capacity_mul_le n k sk.delta)
  have hdc : dec (Matrix.vecMul (Matrix.vecMul μ Gpub + e) sk.p) =
      .ok (Matrix.vecMul ν G) := by
    rw [hrecP]
    exact hdec ν _ hspan
  have hνG : Matrix.vecMul (Matrix.vecMul ν G) (minv sk.p) =
      Matrix.vecMul μ Gpub := by
    rw [Matrix.vecMul_vecMul, hνdef, Matrix.vecMul_vecMul, hGpub,
      Matrix.mul_assoc]
  have herrvec : (Matrix.vecMul μ Gpub + e) +
      Matrix.vecMul (Matrix.vecMul ν G) (minv sk.p) = e := by
    rw [hνG]
    exact vec_add_add_self br _ e
  have hun : unencode hkn G (Matrix.vecMul ν G) = ν := unencode_encode hkn G ν hG1
  have hmsgvec : Matrix.vecMul ν sk.s = μ := by
    rw [hνdef, Matrix.vecMul_vecMul, minv_mul _ hs, Matrix.vecMul_one]
  have hstr2 : strxor
      (encodeVec br (Matrix.vecMul
        (unencode hkn G (Matrix.vecMul ν G)) sk.s))
      (X (encodeVec br ((Matrix.vecMul μ Gpub + e) +
          Matrix.vecMul (Matrix.vecMul ν G) (minv sk.p)))
        ((encodeVec br (Matrix.vecMul
          (unencode hkn G (Matrix.vecMul ν G)) sk.s)).length / BYTE_SIZE)) =
      .ok ext := by
    rw [hun, hmsgvec, hencμ, herrvec, ← herrdef, hmaskedlen, ← hextlen,
      ← hehdef]
    rw [strxor_ok _ _ (by rw [hmaskedlen, hehlen])]
    rw [hmaskdef]
    rw [zipxor_zipxor ext errorHash (by rw [hextlen, hehlen])]
  have htake : ext.take (BYTE_SIZE * plaintextLen m k dH) = pt := by
    rw [hextdef]
    exact take_app _ _ _ hpt
  have hdrop : ext.drop (BYTE_SIZE * plaintextLen m k dH) = H (error ++ pt) := by
    rw [hextdef]
    exact drop_app _ _ _ hpt
  have hdecenc : decCall br hkn sk dec H X dH
      (encodeVec br (Matrix.vecMul μ Gpub + e)) = .ok pt := by
    rw [decCall_step br hkn sk dec H X dH _ (Matrix.vecMul μ Gpub + e)
      (Matrix.vecMul ν G) ext hrec hdc hstr2]
    rw [htake, herrvec, ← herrdef, hdrop,
      decide_eq_true (rfl : H (error ++ pt) = H (error ++ pt))]
    rfl
  rw [henc]
  exact hdecenc

theorem decode_elem_list_none_ok (deg : Nat) (hm : 1 < deg) (data : List Bool) :
    decode_elem_list data deg none =
      .ok ((chunkExact deg (data.drop (data.length % deg))).map bitsToNat) := by
  show (if deg = 1 then Except.ok (data.map fun b => b.toNat)
    else .ok ((chunkExact deg (data.drop (data.length % deg))).map bitsToNat)) = _
  rw [if_neg (by omega)]

theorem decode_elem_list_none_length (deg : Nat) (hm : 1 < deg)
    (data : List Bool) :
    ((chunkExact deg (data.drop (data.length % deg))).map bitsToNat).length =
      data.length / deg := by
  have hlen : (data.drop (data.length % deg)).length =
      deg * (data.length / deg) := by
    rw [List.length_drop]
    have := Nat.div_add_mod data.length deg
    omega
  obtain ⟨_, hl, _⟩ := chunkExact_of_mul deg (by omega) (data.length / deg) _ hlen
  rw [List.length_map, hl]

/-- Claim C10: `Enc.__call__` validates no plaintext length; a plaintext any
number of bytes longer than the nominal size still encrypts without error to a
ciphertext of the nominal length, the surplus being silently dropped when the
masked extended plaintext is truncated to the last `k` field elements. -/
theorem encCall_overlong (br : BitRep K m) {n k : Nat}
    (g : Matrix (Fin k) (Fin n) K)
    (H : List Bool → List Bool) (X : List Bool → Nat → List Bool)
    (dH : Nat) (pt : List Bool) (e : Fin n → K) (w : Nat)
    (hm : 1 < m) (h8k : BYTE_SIZE ∣ m * k) (h8n : BYTE_SIZE ∣ m * n)
    (hH : ∀ x, (H x).length = BYTE_SIZE * dH)
    (hX : ∀ s l, (X s l).length = BYTE_SIZE * l)
    (hdH : dH ≤ m * k / BYTE_SIZE) (hw : 0 < w)
    (hpt : pt.length = BYTE_SIZE * (plaintextLen m k dH + w)) :
    BYTE_SIZE * plaintextLen m k dH < pt.length ∧
      ∃ ct, encCall br g H X e pt = .ok ct ∧
        ct.length = BYTE_SIZE * ciphertextLen m n := by
  have h8k' : (8 : Nat) ∣ m * k := h8k
  have h8n' : (8 : Nat) ∣ m * n := h8n
  refine ⟨?_, ?_⟩
  · rw [hpt]
    show 8 * plaintextLen m k dH < 8 * (plaintextLen m k dH + w)
    omega
  set error := encodeVec br e with herrdef
  have herrlen : error.length = m * n := length_encodeVec_of_dvd br e h8n
  set ext := pt ++ H (error ++ pt) with hextdef
  have hextlen : ext.length = m * k + 8 * w := by
    rw [hextdef, List.length_append, hpt, hH]
    have h1 : (8 : Nat) * (m * k / 8) = m * k := Nat.mul_div_cancel' h8k
    have h2 : dH ≤ m * k / 8 := hdH
    show 8 * (m * k / 8 - dH + w) + 8 * dH = m * k + 8 * w
    omega
  have h8ext : (8 : Nat) ∣ ext.length := by
    rw [hextlen]
    exact Nat.dvd_add h8k' ⟨w, rfl⟩
  set errorHash := X error (ext.length / BYTE_SIZE) with hehdef
  have hehlen : errorHash.length = ext.length := by
    rw [hehdef, hX]
    exact Nat.mul_div_cancel' h8ext
  have hmask : strxor ext errorHash = .ok (List.zipWith Bool.xor ext errorHash) :=
    strxor_ok _ _ hehlen.symm
  set masked := List.zipWith Bool.xor ext errorHash with hmaskdef
  have hmaskedlen : masked.length = m * k + 8 * w := by
    rw [hmaskdef, List.length_zipWith, hehlen, Nat.min_self, hextlen]
  have hvals := decode_elem_list_none_ok m hm masked
  have hvlen := decode_elem_list_none_length m hm masked
  set vals := (chunkExact m (masked.drop (masked.length % m))).map bitsToNat
    with hvalsdef
  have hk : k ≤ vals.length := by
    rw [hvlen, hmaskedlen]
    calc k = m * k / m := (Nat.mul_div_cancel_left k (by omega)).symm
    _ ≤ (m * k + 8 * w) / m := Nat.div_le_div_right (by omega)
  have hlast : ((vals.map br.ofNat).drop
      ((vals.map br.ofNat).length - k)).length = k := by
    rw [List.length_drop, List.length_map]
    omega
  have hdecμ : decodeVec br k masked = .ok (fun i =>
      ((vals.map br.ofNat).drop ((vals.map br.ofNat).length - k)).getD i.val 0)
      := by
    unfold decodeVec
    rw [hvals]
    show (if ((vals.map br.ofNat).drop
          ((vals.map br.ofNat).length - k)).length = k
      then Except.ok (fun i : Fin k =>
        ((vals.map br.ofNat).drop
          ((vals.map br.ofNat).length - k)).getD i.val 0)
      else Except.error Err.typeError) = _
    rw [if_pos hlast]
  set μ : Fin k → K := fun i =>
    ((vals.map br.ofNat).drop ((vals.map br.ofNat).length - k)).getD i.val 0
    with hμdef
  refine ⟨List.zipWith Bool.xor (encodeVec br (Matrix.vecMul μ g)) error, ?_, ?_⟩
  · have hencstep : encCall br g H X e pt =
        (match strxor ext errorHash with
         | .error err => .error err
         | .ok masked2 =>
           match decodeVec br k masked2 with
           | .error err => .error err
           | .ok msg => strxor (encodeVec br (Matrix.vecMul msg g)) error) := rfl
    rw [hencstep, hmask]
    show (match decodeVec br k masked with
      | Except.error err => Except.error err
      | Except.ok msg =>
        strxor (encodeVec br (Matrix.vecMul msg g)) error) = _
    rw [hdecμ]
    show strxor (encodeVec br (Matrix.vecMul μ g)) error = _
    exact strxor_ok _ _ (by rw [length_encodeVec_of_dvd br _ h8n, herrlen])
  · rw [List.length_zipWith, length_encodeVec_of_dvd br _ h8n, herrlen,
      Nat.min_self]
    show m * n = 8 * (m * n / 8)
    exact (Nat.mul_div_cancel' h8n').symm

/-- Claim C2: once the received word decodes and the Gabidulin decoder
answers, `Dec.__call__` raises `DecodingError` exactly when the verifier-hash
check and the rank check both fail, and returns the recovered plaintext
whenever at least one of the two checks passes. -/
theorem decCall_error_iff (br : BitRep K m) {n k : Nat} (hkn : k ≤ n)
    (sk : SecretKey K n k)
    (dec : (Fin n → K) → Except Err (Fin n → K))
    (H : List Bool → List Bool) (X : List Bool → Nat → List Bool)
    (dH : Nat) (ct : List Bool) (received codeword : Fin n → K)
    (ext2 : List Bool)
    (hrec : decodeVec br n ct = .ok received)
    (hdc : dec (Matrix.vecMul received sk.p) = .ok codeword)
    (hstr : strxor
        (encodeVec br
          (Matrix.vecMul (unencode hkn (gabGen k sk.points) codeword) sk.s))
        (X (encodeVec br (received + Matrix.vecMul codeword (minv sk.p)))
          ((encodeVec br
            (Matrix.vecMul (unencode hkn (gabGen k sk.points) codeword)
              sk.s)).length / BYTE_SIZE)) = .ok ext2) :
    (decCall br hkn sk dec H X dH ct = .error .decodingError ↔
      ¬(ext2.drop (BYTE_SIZE * plaintextLen m k dH) =
          H (encodeVec br (received + Matrix.vecMul codeword (minv sk.p)) ++
            ext2.take (BYTE_SIZE * plaintextLen m k dH))) ∧
      ¬(rankVec br (received + Matrix.vecMul codeword (minv sk.p)) =
          decodingCapacity n k sk.delta)) ∧
    ((ext2.drop (BYTE_SIZE * plaintextLen m k dH) =
          H (encodeVec br (received + Matrix.vecMul codeword (minv sk.p)) ++
            ext2.take (BYTE_SIZE * plaintextLen m k dH)) ∨
        rankVec br (received + Matrix.vecMul codeword (minv sk.p)) =
          decodingCapacity n k sk.delta) →
      decCall br hkn sk dec H X dH ct =
        .ok (ext2.take (BYTE_SIZE * plaintextLen m k dH))) := by
  rw [decCall_step br hkn sk dec H X dH ct received codeword ext2 hrec hdc hstr]
  by_cases hh : ext2.drop (BYTE_SIZE * plaintextLen m k dH) =
      H (encodeVec br (received + Matrix.vecMul codeword (minv sk.p)) ++
        ext2.take (BYTE_SIZE * plaintextLen m k dH))
  · simp [hh]
  · by_cases hr : rankVec br (received + Matrix.vecMul codeword (minv sk.p)) =
        decodingCapacity n k sk.delta
    · simp [hh, hr]
    · simp [hh, hr]

/-- Claim C3 (code-bug evidence): when the hash check passes,
`Dec.__call__` returns the plaintext even though the recovered error vector
has rank strictly below the decoding capacity, so the failure of the rank
check alone never raises `DecodingError`, contrary to the claim. -/
theorem decCall_ok_low_rank (br : BitRep K m) {n k : Nat} (hkn : k ≤ n)
    (sk : SecretKey K n k)
    (dec : (Fin n → K) → Except Err (Fin n → K))
    (H : List Bool → List Bool) (X : List Bool → Nat → List Bool)
    (dH : Nat) (ct : List Bool) (received codeword : Fin n → K)
    (ext2 : List Bool)
    (hrec : decodeVec br n ct = .ok received)
    (hdc : dec (Matrix.vecMul received sk.p) = .ok codeword)
    (hstr : strxor
        (encodeVec br
          (Matrix.vecMul (unencode hkn (gabGen k sk.points) codeword) sk.s))
        (X (encodeVec br (received + Matrix.vecMul codeword (minv sk.p)))
          ((encodeVec br
            (Matrix.vecMul (unencode hkn (gabGen k sk.points) codeword)
              sk.s)).length / BYTE_SIZE)) = .ok ext2)
    (hhash : ext2.drop (BYTE_SIZE * plaintextLen m k dH) =
        H (encodeVec br (received + Matrix.vecMul codeword (minv sk.p)) ++
          ext2.take (BYTE_SIZE * plaintextLen m k dH)))
    (hrank : rankVec br (received + Matrix.vecMul codeword (minv sk.p)) <
        decodingCapacity n k sk.delta) :
    rankVec br (received + Matrix.vecMul codeword (minv sk.p)) ≠
        decodingCapacity n k sk.delta ∧
      decCall br hkn sk dec H X dH ct =
        .ok (ext2.take (BYTE_SIZE * plaintextLen m k dH)) := by
  refine ⟨by omega, ?_⟩
  rw [decCall_step br hkn sk dec H X dH ct received codeword ext2 hrec hdc hstr]
  simp [hhash]

/-- Claim C9: `random_invertible_subpace_matrix` raises the parameter error
exactly when the subspace dimension exceeds the field degree; for a dimension
within the degree it never raises it (the run ends with a sampled matrix or
exhausts its randomness). -/
theorem randomInvertibleSubspaceMatrix_guard (deg sdim order : Nat)
    (cands : List (Matrix (Fin order) (Fin order) K)) :
    randomInvertibleSubspaceMatrix deg sdim order cands = .error .valueError ↔
      deg < sdim := by
  unfold randomInvertibleSubspaceMatrix
  by_cases h : deg < sdim
  · simp [h]
  · rw [if_neg h]
    constructor
    · intro hcontra
      cases hfind : cands.find? (fun M => decide (M.det ≠ 0)) with
      | none =>
        rw [hfind] at hcontra
        simp at hcontra
      | some M =>
        rw [hfind] at hcontra
        simp at hcontra
    · intro hlt
      exact absurd hlt h

/-! ## Size bounds for the serialized keys

The DER layer above takes `DerSmall` hypotheses; for keys with parameters of
any realistic magnitude these follow from the crude length bounds here. -/

theorem byteLenNat_le_self (x : Nat) : byteLenNat x ≤ x + 1 := by
  induction x using Nat.strong_induction_on with
  | _ x ih =>
    rw [byteLenNat]
    split
    · omega
    · rename_i h
      have h1 : x / 256 < x := Nat.div_lt_self (by omega) (by omega)
      have h2 := ih (x / 256) h1
      omega

theorem length_derLen_le (x : Nat) : (derLen x).length ≤ 16 + 8 * x := by
  unfold derLen
  split
  · rw [length_natToBitsBE]
    omega
  · rw [List.length_append, length_natToBitsBE]
    unfold natToBytesBE
    rw [length_natToBitsBE]
    have := byteLenNat_le_self x
    omega

theorem length_derTLV_le (tag : Nat) (payload : List Bool) :
    (derTLV tag payload).length ≤ 24 + 9 * payload.length := by
  unfold derTLV
  simp only [List.length_append, length_natToBitsBE]
  have h1 := length_derLen_le (payload.length / 8)
  have h2 : 8 * (payload.length / 8) ≤ payload.length := by omega
  omega

theorem derSmall_of_lt (l : List Bool) (h : l.length < 2 ^ 1002) : DerSmall l := by
  show l.length / 8 < 2 ^ 1000
  omega

theorem length_encodeVec_le (br : BitRep K m) {n : Nat} (v : Fin n → K) :
    (encodeVec br v).length ≤ m * n + 7 := by
  rw [length_encodeVec]
  show 8 * ((m * n + 7) / 8) ≤ m * n + 7
  omega

theorem length_encodeMat (br : BitRep K m) {r c : Nat}
    (M : Matrix (Fin r) (Fin c) K) :
    (encodeMat br M).length =
      BYTE_SIZE * ((m * (c * r) + (BYTE_SIZE - 1)) / BYTE_SIZE) := by
  unfold encodeMat
  rw [length_encode_elem_list]
  congr 2
  rw [List.map_map]
  rw [flatten_length_const m]
  · rw [List.length_map, matList_length]
  · intro x hx
    simp only [List.mem_map] at hx
    obtain ⟨y, _, hy⟩ := hx
    rw [← hy]
    exact length_natToBitsBE _ _

theorem length_encodeMat_le (br : BitRep K m) {r c : Nat}
    (M : Matrix (Fin r) (Fin c) K) :
    (encodeMat br M).length ≤ m * (c * r) + 7 := by
  rw [length_encodeMat]
  show 8 * ((m * (c * r) + 7) / 8) ≤ m * (c * r) + 7
  omega

theorem length_derIntPayload_le (v : Nat) :
    (derIntPayload v).length ≤ 16 + 8 * v := by
  unfold derIntPayload
  have hb := byteLenNat_le_self v
  split
  · rw [List.length_append, length_natToBitsBE]
    unfold natToBytesBE
    rw [length_natToBitsBE]
    omega
  · unfold natToBytesBE
    rw [length_natToBitsBE]
    omega

theorem length_derInteger_le (v : Nat) :
    (derInteger v).length ≤ 168 + 72 * v := by
  unfold derInteger
  have h1 := length_derTLV_le 2 (derIntPayload v)
  have h2 := length_derIntPayload_le v
  omega

theorem derSmall_exportSecret (br : BitRep K m) {n k : Nat}
    (sk : SecretKey K n k)
    (hm : m < 2 ^ 64) (hn : n < 2 ^ 64) (hk : k < 2 ^ 64)
    (hd : sk.delta < 2 ^ 64) :
    DerSmall (exportSecretDer br sk) := by
  apply derSmall_of_lt
  have hmn : m * n ≤ 2 ^ 64 * 2 ^ 64 :=
    Nat.mul_le_mul (le_of_lt hm) (le_of_lt hn)
  have hmkk : m * (k * k) ≤ 2 ^ 64 * (2 ^ 64 * 2 ^ 64) :=
    Nat.mul_le_mul (le_of_lt hm)
      (Nat.mul_le_mul (le_of_lt hk) (le_of_lt hk))
  have hmnn : m * (n * n) ≤ 2 ^ 64 * (2 ^ 64 * 2 ^ 64) :=
    Nat.mul_le_mul (le_of_lt hm)
      (Nat.mul_le_mul (le_of_lt hn) (le_of_lt hn))
  have h0 : (encode_elem_list ((List.ofFn sk.points).map fun x =>
      (m, br.val x))).length ≤ m * n + 7 := length_encodeVec_le br sk.points
  have h1 : (encodeMat br sk.s).length ≤ m * (k * k) + 7 :=
    length_encodeMat_le br sk.s
  have h2 : (encodeMat br sk.p).length ≤ m * (n * n) + 7 :=
    length_encodeMat_le br sk.p
  have hi0 := length_derInteger_le m
  have hi1 := length_derInteger_le n
  have hi2 := length_derInteger_le k
  have hi3 := length_derInteger_le sk.delta
  have hinner : ([derInteger m, derInteger n, derInteger k,
      derInteger sk.delta] : List (List Bool)).flatten.length =
      (derInteger m).length + (derInteger n).length + (derInteger k).length +
        (derInteger sk.delta).length := by
    simp [List.length_append]
    omega
  have hseqin := length_derTLV_le 48
    ([derInteger m, derInteger n, derInteger k,
      derInteger sk.delta] : List (List Bool)).flatten
  have ho0 := length_derTLV_le 4 (encode_elem_list
    ((List.ofFn sk.points).map fun x => (m, br.val x)))
  have ho1 := length_derTLV_le 4 (encodeMat br sk.s)
  have ho2 := length_derTLV_le 4 (encodeMat br sk.p)
  have hflat : ([derOctetString (encode_elem_list
      ((List.ofFn sk.points).map fun x => (m, br.val x))),
      derOctetString (encodeMat br sk.s),
      derOctetString (encodeMat br sk.p),
      derSequence [derInteger m, derInteger n, derInteger k,
        derInteger sk.delta]] : List (List Bool)).flatten.length =
      (derOctetString (encode_elem_list
        ((List.ofFn sk.points).map fun x => (m, br.val x)))).length +
      (derOctetString (encodeMat br sk.s)).length +
      (derOctetString (encodeMat br sk.p)).length +
      (derSequence [derInteger m, derInteger n, derInteger k,
        derInteger sk.delta]).length := by
    simp [List.length_append]
    omega
  have htop := length_derTLV_le 48
    ([derOctetString (encode_elem_list
      ((List.ofFn sk.points).map fun x => (m, br.val x))),
      derOctetString (encodeMat br sk.s),
      derOctetString (encodeMat br sk.p),
      derSequence [derInteger m, derInteger n, derInteger k,
        derInteger sk.delta]] : List (List Bool)).flatten
  show (derTLV 48 _).length < 2 ^ 1002
  calc (derTLV 48 _).length ≤ 24 + 9 * _ := htop
  _ < 2 ^ 1002 := by
    rw [hflat]
    show 24 + 9 * ((derTLV 4 _).length + (derTLV 4 _).length +
      (derTLV 4 _).length + (derTLV 48 _).length) < 2 ^ 1002
    rw [hinner] at hseqin
    omega

theorem derSmall_exportPublic (br : BitRep K m) {n k : Nat} (hkn : k ≤ n)
    (pk : PublicKey K n k)
    (hm : m < 2 ^ 64) (hn : n < 2 ^ 64) (hk : k < 2 ^ 64)
    (hd : pk.delta < 2 ^ 64) :
    DerSmall (exportPublicDer br hkn pk) := by
  apply derSmall_of_lt
  have hmr : m * ((n - k) * k) ≤ 2 ^ 64 * (2 ^ 64 * 2 ^ 64) :=
    Nat.mul_le_mul (le_of_lt hm)
      (Nat.mul_le_mul (by omega) (le_of_lt hk))
  have h0 : (encodeMat br (rightBlock hkn pk.g)).length ≤
      m * ((n - k) * k) + 7 := length_encodeMat_le br _
  have hb0 := length_derTLV_le 3
    (natToBitsBE 8 0 ++ encodeMat br (rightBlock hkn pk.g))
  have hb0len : (natToBitsBE 8 0 ++
      encodeMat br (rightBlock hkn pk.g)).length =
      8 + (encodeMat br (rightBlock hkn pk.g)).length := by
    rw [List.length_append, length_natToBitsBE]
  have hi0 := length_derInteger_le m
  have hi1 := length_derInteger_le n
  have hi2 := length_derInteger_le k
  have hi3 := length_derInteger_le pk.delta
  have hinner : ([derInteger m, derInteger n, derInteger k,
      derInteger pk.delta] : List (List Bool)).flatten.length =
      (derInteger m).length + (derInteger n).length + (derInteger k).length +
        (derInteger pk.delta).length := by
    simp [List.length_append]
    omega
  have hseqin := length_derTLV_le 48
    ([derInteger m, derInteger n, derInteger k,
      derInteger pk.delta] : List (List Bool)).flatten
  have hflat : ([derBitString (encodeMat br (rightBlock hkn pk.g)),
      derSequence [derInteger m, derInteger n, derInteger k,
        derInteger pk.delta]] : List (List Bool)).flatten.length =
      (derBitString (encodeMat br (rightBlock hkn pk.g))).length +
      (derSequence [derInteger m, derInteger n, derInteger k,
        derInteger pk.delta]).length := by
    simp [List.length_append]
  have htop := length_derTLV_le 48
    ([derBitString (encodeMat br (rightBlock hkn pk.g)),
      derSequence [derInteger m, derInteger n, derInteger k,
        derInteger pk.delta]] : List (List Bool)).flatten
  show (derTLV 48 _).length < 2 ^ 1002
  calc (derTLV 48 _).length ≤ 24 + 9 * _ := htop
  _ < 2 ^ 1002 := by
    rw [hflat]
    show 24 + 9 * ((derTLV 3 _).length + (derTLV 48 _).length) < 2 ^ 1002
    rw [hinner] at hseqin
    rw [hb0len] at hb0
    omega

/-- Claim C6: DER and PEM import invert export component-wise, for secret
keys and for public keys in systematic form. -/
theorem keyRoundtrip (br : BitRep K m) {n k : Nat} (hkn : k ≤ n)
    (sk : SecretKey K n k) (pk : PublicKey K n k)
    (hm : 1 < m) (hk : 0 < k) (hkltn : k < n)
    (h8n : BYTE_SIZE ∣ m * n) (h8s : BYTE_SIZE ∣ m * (k * k))
    (h8p : BYTE_SIZE ∣ m * (n * n)) (h8r : BYTE_SIZE ∣ m * ((n - k) * k))
    (hbm : m < 2 ^ 64) (hbn : n < 2 ^ 64) (hbk : k < 2 ^ 64)
    (hbd : sk.delta < 2 ^ 64) (hbd2 : pk.delta < 2 ^ 64)
    (hsys : firstCols hkn pk.g = 1) :
    importSecretDer br (exportSecretDer br sk) = .ok (skData m sk) ∧
    importSecretPem br (exportSecretPem br sk) = .ok (skData m sk) ∧
    importPublicDer br (exportPublicDer br hkn pk) = .ok (pkData m pk) ∧
    importPublicPem br (exportPublicPem br hkn pk) = .ok (pkData m pk) := by
  have hn : 0 < n := by omega
  have hwide : (2 : Nat) ^ 64 ≤ 2 ^ 1000 :=
    Nat.pow_le_pow_right (by omega) (by omega)
  have hm1000 : m < 2 ^ 1000 := lt_of_lt_of_le hbm hwide
  have hn1000 : n < 2 ^ 1000 := lt_of_lt_of_le hbn hwide
  have hk1000 : k < 2 ^ 1000 := lt_of_lt_of_le hbk hwide
  have hd1000 : sk.delta < 2 ^ 1000 := lt_of_lt_of_le hbd hwide
  have hd2000 : pk.delta < 2 ^ 1000 := lt_of_lt_of_le hbd2 hwide
  have hsec := importSecretDer_exportSecretDer br sk hm hk hn h8n h8s h8p
    hm1000 hn1000 hk1000 hd1000 (derSmall_exportSecret br sk hbm hbn hbk hbd)
  have hpub := importPublicDer_exportPublicDer br pk hkn hm hkltn h8r
    hm1000 hn1000 hk1000 hd2000 hsys
    (derSmall_exportPublic br hkn pk hbm hbn hbk hbd2)
  refine ⟨hsec, ?_, hpub, ?_⟩
  · show (if ("PRIVATE KEY" : String) = "PRIVATE KEY"
      then importSecretDer br (exportSecretDer br sk)
      else .error .valueError) = _
    rw [if_pos rfl, hsec]
  · show (if ("PUBLIC KEY" : String) = "PUBLIC KEY"
      then importPublicDer br (exportPublicDer br hkn pk)
      else .error .valueError) = _
    rw [if_pos rfl, hpub]

/-! ## Public key relation and encoding shape -/

/-- Claim C4 (amended): the generator matrix derived by
`SecretKey.public_key` satisfies `S · G_pub · P = G(C)` exactly, equivalently
`G_pub = S⁻¹ · G(C) · P⁻¹` with the inverse scramblers, not
`S · G(C) · P⁻¹ = G_pub` as claimed. -/
theorem s_mul_publicKey_g_mul_p {n k : Nat} (sk : SecretKey K n k)
    (hs : IsUnit sk.s.det) (hp : IsUnit sk.p.det) :
    sk.s * sk.publicKey.g * sk.p = gabGen k sk.points := by
  show sk.s * (minv sk.s * gabGen k sk.points * minv sk.p) * sk.p = _
  rw [← Matrix.mul_assoc, ← Matrix.mul_assoc, mul_minv _ hs, Matrix.one_mul,
    Matrix.mul_assoc, minv_mul _ hp, Matrix.mul_one]

/-- The encoding of an element list as the specification document words it:
per-element fixed-width byte strings, concatenated. -/
def specEncodeElemList (elems : List (Nat × Nat)) : List Bool :=
  (elems.map fun e => encode_elem e.1 e.2).flatten

/-- Claim C7 (amended): `encode` on a list packs the `deg`-bit coefficient
strings of the elements contiguously, left-filled with zero bits to a whole
number of bytes, rather than concatenating fixed ceil(deg/8)-byte per-element
encodings; in particular an `F_2` element occupies one bit, not one byte. -/
theorem encode_elem_list_bitpacked (elems : List (Nat × Nat)) :
    encode_elem_list elems =
      List.replicate (BYTE_SIZE *
          (((elems.map fun e => to_str e.1 e.2).flatten.length +
            (BYTE_SIZE - 1)) / BYTE_SIZE) -
          (elems.map fun e => to_str e.1 e.2).flatten.length) false ++
        (elems.map fun e => to_str e.1 e.2).flatten := by
  have h : (elems.map fun e => to_str e.1 e.2).flatten.length ≤
      BYTE_SIZE * (((elems.map fun e => to_str e.1 e.2).flatten.length +
        (BYTE_SIZE - 1)) / BYTE_SIZE) := by
    show _ ≤ 8 * ((_ + 7) / 8)
    omega
  exact natToBitsBE_pad _ _ h

theorem encode_elem_list_f2_bitpacked_ne :
    encode_elem_list [(1, 1), (1, 1)] ≠ specEncodeElemList [(1, 1), (1, 1)] := by
  decide

/-- Claim C8 (code-bug evidence): `decode_elem_list` on the three bytes
`04 19 61` over a degree-14 field silently discards the ten leading bits and
returns the element `6497` instead of refusing the length-inconsistent
input (the package's own test expects a failure here). -/
theorem decode_elem_list_silent_truncation :
    decode_elem_list
      (natToBitsBE 8 4 ++ (natToBitsBE 8 25 ++ natToBitsBE 8 97)) 14 none =
      .ok [6497] := by
  rw [decode_elem_list_none_ok 14 (by omega)]
  have hdata : natToBitsBE 8 4 ++ (natToBitsBE 8 25 ++ natToBitsBE 8 97) =
      [false, false, false, false, false, true, false, false, false, false,
       false, true, true, false, false, true, false, true, true, false, false,
       false, false, true] := by decide
  rw [hdata]
  have hdrop : ([false, false, false, false, false, true, false, false, false,
      false, false, true, true, false, false, true, false, true, true, false,
      false, false, false, true] : List Bool).drop
      (([false, false, false, false, false, true, false, false, false, false,
        false, true, true, false, false, true, false, true, true, false, false,
        false, false, true] : List Bool).length % 14) =
      [false, true, true, false, false, true, false, true, true, false, false,
       false, false, true] := by decide
  rw [hdrop]
  have hchunk : chunkExact 14 ([false, true, true, false, false, true, false,
      true, true, false, false, false, false, true] : List Bool) =
      [[false, true, true, false, false, true, false, true, true, false,
        false, false, false, true]] := by
    rw [chunkExact.eq_def]
    rw [dif_neg (by decide)]
    have h1 : ([false, true, true, false, false, true, false, true, true,
        false, false, false, false, true] : List Bool).drop 14 = [] := by
      decide
    have h2 : ([false, true, true, false, false, true, false, true, true,
        false, false, false, false, true] : List Bool).take 14 =
        [false, true, true, false, false, true, false, true, true, false,
         false, false, false, true] := by
      decide
    rw [h1, h2, chunkExact.eq_def]
    simp
  rw [hchunk]
  have hval : List.map bitsToNat
      [[false, true, true, false, false, true, false, true, true, false,
        false, false, false, true]] = [6497] := by decide
  rw [hval]

/-- Claim C5: the public key derived from a key produced by `generate` has a
generator matrix in systematic form (its first `k` columns are the identity),
and its serialization stores only the right block. -/
theorem generate_systematic_shape (br : BitRep K m) {n k : Nat} (hkn : k ≤ n)
    (points : Fin n → K) (s0 : Matrix (Fin k) (Fin k) K)
    (p : Matrix (Fin n) (Fin n) K) (delta : Nat)
    (hs0 : IsUnit s0.det)
    (hT1 : IsUnit (firstCols hkn (s0 * gabGen k points * minv p)).det) :
    firstCols hkn (generateCore hkn points s0 p delta).publicKey.g = 1 ∧
    exportPublicDer br hkn (generateCore hkn points s0 p delta).publicKey =
      derSequence [derBitString (encodeMat br (rightBlock hkn
          (generateCore hkn points s0 p delta).publicKey.g)),
        derSequence [derInteger m, derInteger n, derInteger k,
          derInteger (generateCore hkn points s0 p delta).publicKey.delta]] :=
  ⟨generateCore_systematic hkn points s0 p delta hs0 hT1, rfl⟩

/-! ## Concrete instances over the sixteen-element field -/

/-- The generator `x` of `GF16`. -/
def xG : GF16 := ⟨false, true, false, false⟩

/-- Proof that two is at most four, fixed once for the `4 × 2` instances. -/
theorem le24 : (2 : Nat) ≤ 4 := by omega

/-- Evaluation points `1, x`, independent over `F₂`. -/
def wpts2 : Fin 2 → GF16 := fun i => if i.val = 0 then 1 else xG

/-- A `2 × 2` secret key with identity scramblers. -/
def wsk2 : SecretKey GF16 2 2 := ⟨wpts2, 1, 1, 1⟩

/-- Evaluation points `1, x, x², x³`. -/
def wpts4 : Fin 4 → GF16 := fun i => xG ^ i.val

/-- A `4 × 2` secret key with identity scramblers. -/
def wsk4 : SecretKey GF16 4 2 := ⟨wpts4, 1, 1, 1⟩

/-- A systematic `2 × 4` public key. -/
def wpk4 : PublicKey GF16 4 2 :=
  ⟨Matrix.of fun i j => if (i : Nat) = (j : Nat) then 1 else 0, 1⟩

/-- A hash function with empty digest. -/
def wH : List Bool → List Bool := fun _ => []

/-- An extendable-output function producing an all-zero mask. -/
def wX : List Bool → Nat → List Bool := fun _ l => List.replicate (8 * l) false

/-- The identity decoder on length-2 words. -/
def wdec2 : (Fin 2 → GF16) → Except Err (Fin 2 → GF16) := fun w => .ok w

/-- The identity decoder on length-4 words. -/
def wdec4 : (Fin 4 → GF16) → Except Err (Fin 4 → GF16) := fun w => .ok w

/-- An eight-bit plaintext. -/
def wpt : List Bool := List.replicate 8 true

/-- A `1 × 1` key separating the scrambler direction in the public key. -/
def cexSk : SecretKey GF16 1 1 := ⟨fun _ => 1, Matrix.of fun _ _ => xG, 1, 1⟩

theorem cex_scrambler_direction :
    ¬(cexSk.s * gabGen 1 cexSk.points * minv cexSk.p = cexSk.publicKey.g) := by
  decide

theorem s_mul_publicKey_g_mul_p_inst :
    cexSk.s * cexSk.publicKey.g * cexSk.p = gabGen 1 cexSk.points :=
  s_mul_publicKey_g_mul_p cexSk (isUnit_iff_ne_zero.mpr (by decide))
    (isUnit_iff_ne_zero.mpr (by decide))

theorem generate_systematic_shape_inst :
    firstCols (le_refl 2) (generateCore (le_refl 2) wpts2
        (1 : Matrix (Fin 2) (Fin 2) GF16)
        (1 : Matrix (Fin 2) (Fin 2) GF16) 1).publicKey.g = 1 ∧
    exportPublicDer gf16Rep (le_refl 2) (generateCore (le_refl 2) wpts2
        (1 : Matrix (Fin 2) (Fin 2) GF16)
        (1 : Matrix (Fin 2) (Fin 2) GF16) 1).publicKey =
      derSequence [derBitString (encodeMat gf16Rep (rightBlock (le_refl 2)
          (generateCore (le_refl 2) wpts2 (1 : Matrix (Fin 2) (Fin 2) GF16)
            (1 : Matrix (Fin 2) (Fin 2) GF16) 1).publicKey.g)),
        derSequence [derInteger 4, derInteger 2, derInteger 2,
          derInteger (generateCore (le_refl 2) wpts2
            (1 : Matrix (Fin 2) (Fin 2) GF16)
            (1 : Matrix (Fin 2) (Fin 2) GF16) 1).publicKey.delta]] :=
  generate_systematic_shape gf16Rep (le_refl 2) wpts2 1 1 1
    (by rw [Matrix.det_one]; exact isUnit_one)
    (isUnit_iff_ne_zero.mpr (by decide))

theorem keyRoundtrip_inst :
    importSecretDer gf16Rep (exportSecretDer gf16Rep wsk4) =
      .ok (skData 4 wsk4) ∧
    importSecretPem gf16Rep (exportSecretPem gf16Rep wsk4) =
      .ok (skData 4 wsk4) ∧
    importPublicDer gf16Rep (exportPublicDer gf16Rep le24 wpk4) =
      .ok (pkData 4 wpk4) ∧
    importPublicPem gf16Rep (exportPublicPem gf16Rep le24 wpk4) =
      .ok (pkData 4 wpk4) :=
  keyRoundtrip gf16Rep le24 wsk4 wpk4 (by decide) (by decide) (by decide)
    (by decide) (by decide) (by decide) (by decide)
    (by decide) (by decide) (by decide) (by decide) (by decide)
    (by
      funext i j
      by_cases h : i = j
      · subst h
        show (if (i : Nat) = (i : Nat) then (1 : GF16) else 0) = _
        rw [if_pos rfl, Matrix.one_apply_eq]
      · show (if (i : Nat) = (j : Nat) then (1 : GF16) else 0) = _
        rw [if_neg (fun hc => h (Fin.ext hc)), Matrix.one_apply_ne h])

theorem encCall_overlong_inst :
    BYTE_SIZE * plaintextLen 4 2 0 < (List.replicate 16 true).length ∧
      ∃ ct, encCall gf16Rep wpk4.g wH wX (fun _ => 0) (List.replicate 16 true) =
          .ok ct ∧
        ct.length = BYTE_SIZE * ciphertextLen 4 4 :=
  encCall_overlong gf16Rep wpk4.g wH wX 0 (List.replicate 16 true)
    (fun _ => 0) 1 (by decide) (by decide) (by decide)
    (fun _ => rfl) (fun _ l => List.length_replicate _ _)
    (by decide) (by decide) (by decide)

theorem decCall_encCall_inst :
    (encCall gf16Rep wsk2.publicKey.g wH wX (fun _ => 0) wpt).bind
      (decCall gf16Rep (le_refl 2) wsk2 wdec2 wH wX 0) = .ok wpt :=
  decCall_encCall gf16Rep (le_refl 2) wsk2 wdec2 wH wX 0 wpt (fun _ => 0)
    (by decide) (by decide) (by decide)
    (by
      show IsUnit (1 : Matrix (Fin 2) (Fin 2) GF16).det
      rw [Matrix.det_one]
      exact isUnit_one)
    (by
      show IsUnit (1 : Matrix (Fin 2) (Fin 2) GF16).det
      rw [Matrix.det_one]
      exact isUnit_one)
    (isUnit_iff_ne_zero.mpr (by decide))
    (by
      intro msg e hsp
      have he0 : e = 0 := by
        obtain ⟨b, c, hv⟩ := hsp
        funext i
        rw [hv i]
        exact Finset.sum_eq_zero fun j _ => absurd j.isLt (by omega)
      rw [he0, add_zero]
      rfl)
    (fun _ => rfl)
    (fun _ l => List.length_replicate _ _)
    (by decide) (by decide)
    ⟨fun _ => 0, fun _ _ => false,
      fun i => (Finset.sum_eq_zero fun j _ =>
        absurd j.isLt (Nat.not_lt_zero _)).symm⟩
    ⟨fun _ => 1, fun i j _ => decide (i = j), by
      intro i j
      show (1 : Matrix (Fin 2) (Fin 2) GF16) i j =
        ∑ u : Fin 1, if (decide (i = j) : Bool) then (1 : GF16) else 0
      rw [Fin.sum_univ_one]
      by_cases h : i = j
      · rw [h, Matrix.one_apply_eq, if_pos (by simp)]
      · rw [Matrix.one_apply_ne h, if_neg (by simp [h])]⟩

/-- A fixed received word of length 2. -/
def wv2 : Fin 2 → GF16 := fun _ => 1

/-- Its byte encoding, used as a ciphertext. -/
def wct2 : List Bool := encodeVec gf16Rep wv2

/-- The codeword the identity decoder answers on `wct2`. -/
def wcw2 : Fin 2 → GF16 := Matrix.vecMul wv2 wsk2.p

/-- The message bytes decryption recomputes on `wct2`. -/
def wmsg2 : List Bool :=
  encodeVec gf16Rep
    (Matrix.vecMul (unencode (le_refl 2) (gabGen 2 wsk2.points) wcw2) wsk2.s)

/-- The recovered error vector on `wct2`. -/
def werrv2 : Fin 2 → GF16 := wv2 + Matrix.vecMul wcw2 (minv wsk2.p)

/-- Its byte encoding. -/
def werr2 : List Bool := encodeVec gf16Rep werrv2

/-- The unmasked extended plaintext on `wct2`. -/
def wext2 : List Bool :=
  List.zipWith Bool.xor wmsg2 (wX werr2 (wmsg2.length / BYTE_SIZE))

theorem decCall_error_iff_inst :
    (decCall gf16Rep (le_refl 2) wsk2 wdec2 wH wX 0 wct2 =
        .error .decodingError ↔
      ¬(wext2.drop (BYTE_SIZE * plaintextLen 4 2 0) =
          wH (werr2 ++ wext2.take (BYTE_SIZE * plaintextLen 4 2 0))) ∧
      ¬(rankVec gf16Rep werrv2 = decodingCapacity 2 2 wsk2.delta)) ∧
    ((wext2.drop (BYTE_SIZE * plaintextLen 4 2 0) =
          wH (werr2 ++ wext2.take (BYTE_SIZE * plaintextLen 4 2 0)) ∨
        rankVec gf16Rep werrv2 = decodingCapacity 2 2 wsk2.delta) →
      decCall gf16Rep (le_refl 2) wsk2 wdec2 wH wX 0 wct2 =
        .ok (wext2.take (BYTE_SIZE * plaintextLen 4 2 0))) :=
  decCall_error_iff gf16Rep (le_refl 2) wsk2 wdec2 wH wX 0 wct2 wv2 wcw2 wext2
    (decodeVec_encodeVec gf16Rep wv2 (by decide) (by decide))
    rfl
    (strxor_ok _ _ (by
      simp only [wX, List.length_replicate, length_encodeVec]
      decide))

/-- A fixed received word of length 4. -/
def wv4 : Fin 4 → GF16 := fun _ => 1

/-- Its byte encoding, used as a ciphertext. -/
def wct4 : List Bool := encodeVec gf16Rep wv4

/-- The codeword the identity decoder answers on `wct4`. -/
def wcw4 : Fin 4 → GF16 := Matrix.vecMul wv4 wsk4.p

/-- The message bytes decryption recomputes on `wct4`. -/
def wmsg4 : List Bool :=
  encodeVec gf16Rep
    (Matrix.vecMul (unencode le24 (gabGen 2 wsk4.points) wcw4) wsk4.s)

/-- The recovered error vector on `wct4`. -/
def werrv4 : Fin 4 → GF16 := wv4 + Matrix.vecMul wcw4 (minv wsk4.p)

/-- Its byte encoding. -/
def werr4 : List Bool := encodeVec gf16Rep werrv4

/-- The unmasked extended plaintext on `wct4`. -/
def wext4 : List Bool :=
  List.zipWith Bool.xor wmsg4 (wX werr4 (wmsg4.length / BYTE_SIZE))

theorem werrv4_zero : werrv4 = 0 := by
  have hminv : minv wsk4.p = 1 := by
    show minv 1 = 1
    unfold minv
    rw [Matrix.det_one, Matrix.adjugate_one, inv_one, one_smul]
  show wv4 + Matrix.vecMul wcw4 (minv wsk4.p) = 0
  rw [hminv, Matrix.vecMul_one]
  have hcw : wcw4 = wv4 := by
    show Matrix.vecMul wv4 wsk4.p = wv4
    show Matrix.vecMul wv4 1 = wv4
    exact Matrix.vecMul_one wv4
  rw [hcw]
  funext i
  exact gf16Rep.add_self (wv4 i)

theorem decCall_ok_low_rank_inst :
    rankVec gf16Rep werrv4 ≠ decodingCapacity 4 2 wsk4.delta ∧
      decCall gf16Rep le24 wsk4 wdec4 wH wX 0 wct4 =
        .ok (wext4.take (BYTE_SIZE * plaintextLen 4 2 0)) :=
  decCall_ok_low_rank gf16Rep le24 wsk4 wdec4 wH wX 0 wct4 wv4 wcw4 wext4
    (decodeVec_encodeVec gf16Rep wv4 (by decide) (by decide))
    rfl
    (strxor_ok _ _ (by
      simp only [wX, List.length_replicate, length_encodeVec]
      decide))
    (by
      show wext4.drop (BYTE_SIZE * plaintextLen 4 2 0) = []
      apply List.drop_eq_nil_of_le
      show wext4.length ≤ 8 * plaintextLen 4 2 0
      simp only [wext4, List.length_zipWith, wX, List.length_replicate,
        wmsg4, length_encodeVec]
      decide)
    (by
      show rankVec gf16Rep werrv4 < decodingCapacity 4 2 wsk4.delta
      rw [werrv4_zero]
      decide)

end Alshehhi
